import Mathlib

/-!
Verification of the vault-secrets-rotator core against its specification.

This file gives a shallow embedding, in Lean 4, of the pure core of the
repository: the dotenv updater (`vault_utils.update_dotenv_content`), the
three secret formatters (`secret_formats.py`), the path/format resolver
(`utils.get_path_format`), the content-sniffing logic of
`utils.rotate_secret_kv`, and the batch loop
(`rotate_secrets.VaultSecretRotator.rotate_secrets_for_app`).

Strings are embedded as `List Char`.  Python dictionaries are embedded as
association lists with Python's insertion-order/overwrite semantics
(`dinsert`, `dlookup`).  Code that can raise a Python exception is embedded
with an `Except` result type; the error payload is irrelevant and kept
minimal.  Regular-expression scanning (`re.finditer`) is embedded as an
explicit left-to-right scanner that is faithful to the concrete patterns
used in the source (documented at each definition).
-/

namespace Vault

/-- Python strings are embedded as lists of characters. -/
abbrev Str := List Char

/-- ASCII whitespace, as stripped by Python `str.strip()` and matched by
regex `\s` (the source only ever meets ASCII here). -/
def pySpace (c : Char) : Bool :=
  c = ' ' || c = '\t' || c = '\n' || c = '\r' || c = '\x0b' || c = '\x0c'

/-- Python `str.strip()`: drop leading and trailing whitespace. -/
def pystrip (s : Str) : Str :=
  ((s.dropWhile pySpace).reverse.dropWhile pySpace).reverse

/-- `s.strip('"\'')`: drop leading and trailing quote characters. -/
def isQuote (c : Char) : Bool := c = '"' || c = '\''

/-- Python `str.strip(chars)`: drop leading and trailing characters
satisfying `p`. -/
def stripChars (p : Char → Bool) (s : Str) : Str :=
  ((s.dropWhile p).reverse.dropWhile p).reverse

/-- Python `str.split(sep)` for a one-character separator: always returns at
least one (possibly empty) piece. -/
def splitOnChar (sep : Char) : Str → List Str
  | [] => [[]]
  | c :: cs =>
    let r := splitOnChar sep cs
    if c = sep then [] :: r
    else
      match r with
      | [] => [[c]]
      | h :: t => (c :: h) :: t

/-- Python `str.split(sep, 1)`: the part before the first separator, and
(if the separator occurs) the part after it. -/
def splitOnce (sep : Char) : Str → Str × Option Str
  | [] => ([], none)
  | c :: cs =>
    if c = sep then ([], some cs)
    else
      let r := splitOnce sep cs
      (c :: r.1, r.2)

/-- `startsWithL pat s`: `pat` is a prefix of `s` (Python `str.startswith`). -/
def startsWithL : Str → Str → Bool
  | [], _ => true
  | _ :: _, [] => false
  | p :: ps, c :: cs => p = c && startsWithL ps cs

/-- `endsWithL pat s`: `pat` is a suffix of `s` (Python `str.endswith`). -/
def endsWithL (pat s : Str) : Bool :=
  startsWithL pat.reverse s.reverse

/-- Python `pat in s`: substring occurrence test. -/
def subL (pat : Str) : Str → Bool
  | [] => startsWithL pat []
  | c :: cs => startsWithL pat (c :: cs) || subL pat cs

/-- Python dict lookup (`k in d` / `d[k]`) on an association list. -/
def dlookup (k : Str) : List (Str × Str) → Option Str
  | [] => none
  | (k2, v) :: rest => if k = k2 then some v else dlookup k rest

/-- Python dict assignment `d[k] = v`: overwrite in place if the key exists
(keeping its position), otherwise append. -/
def dinsert (d : List (Str × Str)) (k v : Str) : List (Str × Str) :=
  match d with
  | [] => [(k, v)]
  | (k2, v2) :: rest => if k2 = k then (k2, v) :: rest else (k2, v2) :: dinsert rest k v

/-- Fold a list of written entries into a dict, in order
(`for ...: d[k] = v`). -/
def dofList (es : List (Str × Str)) : List (Str × Str) :=
  es.foldl (fun d kv => dinsert d kv.1 kv.2) []

/-! ## The dotenv updater (`vault_utils.update_dotenv_content`) -/

/-- The line layout `update_dotenv_content` writes for an updated key:
`export KEY="value"` (always double-quoted). -/
def canonLine (k v : Str) : Str :=
  "export ".toList ++ k ++ '=' :: '"' :: (v ++ ['"'])

/-- The lines `update_dotenv_content` iterates over:
`content.strip().split('\n')`. -/
def pyLines (content : Str) : List Str :=
  splitOnChar '\n' (pystrip content)

/-- The key `update_dotenv_content` extracts from a line, when the stripped
line starts with `export `: the part before the first `=`, stripped.
(`key = line.strip()[7:].split('=', 1)[0].strip()`). -/
def lineKey (line : Str) : Option Str :=
  let s := pystrip line
  if startsWithL "export ".toList s then
    some (pystrip (splitOnce '=' (s.drop 7)).1)
  else none

/-- The loop body of `update_dotenv_content` for one line.  Returns the
output line together with the old-value entry recorded for it (if any).
The `.error` case is the `IndexError` Python raises at
`var_part.split('=', 1)[1]` when an `export` line whose key is in `updates`
has no `=`. -/
def processLine (updates : List (Str × Str)) (line : Str) :
    Except Unit (Str × Option (Str × Str)) :=
  let s := pystrip line
  if startsWithL "export ".toList s then
    let var_part := s.drop 7
    let parts := splitOnce '=' var_part
    let key := pystrip parts.1
    match dlookup key updates with
    | some newv =>
      match parts.2 with
      | none => .error ()
      | some rest =>
        .ok (canonLine key newv, some (key, stripChars isQuote (pystrip rest)))
    | none => .ok (line, none)
  else .ok (line, none)

/-- The line loop of `update_dotenv_content`: process every line in order,
propagating the first exception. -/
def eachLine (updates : List (Str × Str)) :
    List Str → Except Unit (List (Str × Option (Str × Str)))
  | [] => .ok []
  | l :: ls => do
    let p ← processLine updates l
    let ps ← eachLine updates ls
    return p :: ps

/-- `vault_utils.update_dotenv_content(content, updates)`: returns the
rewritten text and the dict of old values.  Empty content or empty updates
are returned unchanged.  Lines are processed independently; the rewritten
text is the processed lines joined with `\n`. -/
def update_dotenv_content (content : Str) (updates : List (Str × Str)) :
    Except Unit (Str × List (Str × Str)) :=
  if content.isEmpty || updates.isEmpty then .ok (content, [])
  else do
    let processed ← eachLine updates (pyLines content)
    return (List.intercalate ['\n'] (processed.map Prod.fst),
            dofList (processed.filterMap Prod.snd))

/-! ### Characterizations of the per-line processing -/

/-- The output line `processLine` produces (on the non-exceptional path):
an `export` line whose key is in `updates` is rewritten canonically, every
other line is copied verbatim. -/
def lineOutFor (updates : List (Str × Str)) (line : Str) : Str :=
  match lineKey line with
  | some key =>
    match dlookup key updates with
    | some nv => canonLine key nv
    | none => line
  | none => line

/-- The old value recorded for an `export` line: the part after the first
`=`, stripped of whitespace and then of quotes
(`var_part.split('=', 1)[1].strip().strip('"\'')`). -/
def lineOldValue (line : Str) : Option Str :=
  ((splitOnce '=' ((pystrip line).drop 7)).2).map
    (fun r => stripChars isQuote (pystrip r))

/-- The old-value entry `processLine` records for a line. -/
def lineEntryFor (updates : List (Str × Str)) (line : Str) :
    Option (Str × Str) :=
  match lineKey line with
  | some key =>
    match dlookup key updates with
    | some _ => (lineOldValue line).map (fun r => (key, r))
    | none => none
  | none => none

/-- A line the updater does not touch: either it is not an `export` line,
or its key is not in `updates`. -/
def untouched (updates : List (Str × Str)) (line : Str) : Prop :=
  match lineKey line with
  | some key => dlookup key updates = none
  | none => True

/-! ## Secret formatters (`secret_formats.py`)

The two dotenv formatters scan their input with `re.finditer`.  The
concrete patterns are embedded as explicit left-to-right scanners with the
exact backtracking behaviour of the patterns used in the source (analysed
at each definition).  -/

/-- Regex class `[A-Za-z0-9_]` (ASCII, as in the source patterns). -/
def wordChar (c : Char) : Bool := c.isAlpha || c.isDigit || c = '_'

/-- `(.+?)["\']`: the shortest nonempty run of non-newline characters
followed by a quote character (the closing quote of the pattern; the
character class means it need not match the opening quote).  Returns the
run after its first character, and the text after the closing quote. -/
def grabToQuote : Str → Option (Str × Str)
  | [] => none
  | c :: cs =>
    if isQuote c then some ([], cs)
    else if c = '\n' then none
    else (grabToQuote cs).map (fun p => (c :: p.1, p.2))

/-- One attempted match of `export\s+([A-Za-z0-9_]+)=["\'](.+?)["\']` at
the start of `s` (pattern of `DotenvExportFormatter.parse`).  The greedy
parts (`\s+`, `[A-Za-z0-9_]+`) need no backtracking because their
character classes are disjoint from what must follow them. -/
def matchExportAt (s : Str) : Option ((Str × Str) × Str) :=
  match s with
  | 'e' :: 'x' :: 'p' :: 'o' :: 'r' :: 't' :: rest =>
    if (rest.takeWhile pySpace).isEmpty then none
    else
      let r1 := rest.dropWhile pySpace
      let name := r1.takeWhile wordChar
      if name.isEmpty then none
      else
        match r1.dropWhile wordChar with
        | '=' :: q :: c0 :: r4 =>
          if isQuote q then
            if c0 = '\n' then none
            else
              match grabToQuote r4 with
              | some (tail, rest2) => some ((name, c0 :: tail), rest2)
              | none => none
          else none
        | _ => none
  | _ => none

/-- `re.finditer` for the export pattern: try a match at every position,
left to right, continuing after the end of each match.  The fuel bounds
the number of steps; callers pass `length + 1`, which is sufficient since
every step consumes at least one character. -/
def exportScan : Nat → Str → List (Str × Str)
  | 0, _ => []
  | fuel + 1, s =>
    match matchExportAt s with
    | some (kv, rest) => kv :: exportScan fuel rest
    | none =>
      match s with
      | [] => []
      | _ :: cs => exportScan fuel cs

/-- `DotenvExportFormatter.parse`: collect all matches into a dict. -/
def DotenvExportFormatter.parse (content : Str) : List (Str × Str) :=
  dofList (exportScan (content.length + 1) content)

/-- Python string `<` (lexicographic by code point). -/
def pyStrLt : Str → Str → Bool
  | [], [] => false
  | [], _ :: _ => true
  | _ :: _, [] => false
  | a :: as, b :: bs =>
    if a.toNat < b.toNat then true
    else if b.toNat < a.toNat then false
    else pyStrLt as bs

/-- Python `<` on `(key, value)` pairs (tuple comparison). -/
def pairLt (x y : Str × Str) : Bool :=
  pyStrLt x.1 y.1 || (decide (x.1 = y.1) && pyStrLt x.2 y.2)

/-- Stable insertion into a sorted list (used to model Python `sorted`). -/
def insortInsert (lt : (Str × Str) → (Str × Str) → Bool) (x : Str × Str) :
    List (Str × Str) → List (Str × Str)
  | [] => [x]
  | y :: ys => if lt x y then x :: y :: ys else y :: insortInsert lt x ys

/-- Python `sorted(secrets.items())`: a sort by tuple comparison.  The
formatters only ever sort dict items, whose keys are distinct, so the
result of any correct sort is uniquely determined. -/
def pysorted : List (Str × Str) → List (Str × Str)
  | [] => []
  | x :: xs => insortInsert pairLt x (pysorted xs)

/-- `DotenvExportFormatter.format`: one canonical double-quoted export
line per key, sorted, joined with newlines. -/
def DotenvExportFormatter.format (secrets : List (Str × Str)) : Str :=
  List.intercalate ['\n'] ((pysorted secrets).map (fun kv => canonLine kv.1 kv.2))

/-- One attempted match of
`([A-Za-z0-9_]+)=(?:["\'](.+?)["\']|(.+?)(?:\n|$))` at the start of `s`
(pattern of `DotenvPlainFormatter.parse`).  The quoted alternative is
tried first; if it fails, the unquoted alternative matches up to the next
newline (consuming it) or the end of input. -/
def matchPlainAt (s : Str) : Option ((Str × Str) × Str) :=
  let name := s.takeWhile wordChar
  if name.isEmpty then none
  else
    match s.dropWhile wordChar with
    | '=' :: r2 =>
      let alt1 : Option ((Str × Str) × Str) :=
        match r2 with
        | q :: r3 =>
          if isQuote q then
            match r3 with
            | c0 :: r4 =>
              if c0 = '\n' then none
              else
                match grabToQuote r4 with
                | some (tail, rest2) => some ((name, c0 :: tail), rest2)
                | none => none
            | [] => none
          else none
        | [] => none
      match alt1 with
      | some res => some res
      | none =>
        match r2 with
        | [] => none
        | c0 :: _ =>
          if c0 = '\n' then none
          else
            let v := r2.takeWhile (fun c => !(c = '\n'))
            match r2.dropWhile (fun c => !(c = '\n')) with
            | '\n' :: rest2 => some ((name, v), rest2)
            | rest => some ((name, v), rest)
    | _ => none

/-- `re.finditer` for the plain pattern. -/
def plainScan : Nat → Str → List (Str × Str)
  | 0, _ => []
  | fuel + 1, s =>
    match matchPlainAt s with
    | some (kv, rest) => kv :: plainScan fuel rest
    | none =>
      match s with
      | [] => []
      | _ :: cs => plainScan fuel cs

/-- `DotenvPlainFormatter.parse`: collect all matches into a dict. -/
def DotenvPlainFormatter.parse (content : Str) : List (Str × Str) :=
  dofList (plainScan (content.length + 1) content)

/-- `DotenvPlainFormatter.format`: `KEY=value` lines, unquoted, sorted. -/
def DotenvPlainFormatter.format (secrets : List (Str × Str)) : Str :=
  List.intercalate ['\n'] ((pysorted secrets).map (fun kv => kv.1 ++ '=' :: kv.2))

/-! ## A model of Python's `json` module

`JsonFormatter` delegates entirely to the standard library
(`json.loads` / `json.dumps(..., indent=2)`).  The standard library is not
part of this repository, so it is modelled here concretely: `jsonLoads` is
a strict recursive-descent parser for the JSON accepted by Python
(including the non-standard `NaN`/`Infinity` constants); numeric literals
are kept as lexemes (their float value is never needed).  `\uXXXX` escapes
are decoded to the corresponding scalar value (surrogate-pair combination
is simplified), which no theorem below depends on. -/

inductive Json where
  | null
  | bool (b : Bool)
  | num (lexeme : Str)
  | str (s : Str)
  | arr (elems : List Json)
  | obj (members : List (Str × Json))

/-- JSON whitespace. -/
def jsonWs (c : Char) : Bool := c = ' ' || c = '\t' || c = '\n' || c = '\r'

def skipWs (s : Str) : Str := s.dropWhile jsonWs

def hexVal (c : Char) : Option Nat :=
  if '0' ≤ c ∧ c ≤ '9' then some (c.toNat - 48)
  else if 'a' ≤ c ∧ c ≤ 'f' then some (c.toNat - 87)
  else if 'A' ≤ c ∧ c ≤ 'F' then some (c.toNat - 55)
  else none

/-- JSON string body (after the opening quote): literal characters and
escapes, ended by an unescaped `"`.  Control characters are rejected
(Python's strict default). -/
def parseJStr : Str → Option (Str × Str)
  | [] => none
  | c :: cs =>
    if c = '"' then some ([], cs)
    else if c = '\\' then
      match cs with
      | [] => none
      | e :: cs2 =>
        if e = '"' then (parseJStr cs2).map (fun p => ('"' :: p.1, p.2))
        else if e = '\\' then (parseJStr cs2).map (fun p => ('\\' :: p.1, p.2))
        else if e = '/' then (parseJStr cs2).map (fun p => ('/' :: p.1, p.2))
        else if e = 'b' then (parseJStr cs2).map (fun p => ('\x08' :: p.1, p.2))
        else if e = 'f' then (parseJStr cs2).map (fun p => ('\x0c' :: p.1, p.2))
        else if e = 'n' then (parseJStr cs2).map (fun p => ('\n' :: p.1, p.2))
        else if e = 'r' then (parseJStr cs2).map (fun p => ('\r' :: p.1, p.2))
        else if e = 't' then (parseJStr cs2).map (fun p => ('\t' :: p.1, p.2))
        else if e = 'u' then
          match cs2 with
          | h1 :: h2 :: h3 :: h4 :: cs3 =>
            match hexVal h1, hexVal h2, hexVal h3, hexVal h4 with
            | some a, some b, some c2, some d =>
              (parseJStr cs3).map
                (fun p => (Char.ofNat (a * 4096 + b * 256 + c2 * 16 + d) :: p.1, p.2))
            | _, _, _, _ => none
          | _ => none
        else none
    else if c.toNat < 32 then none
    else (parseJStr cs).map (fun p => (c :: p.1, p.2))

/-- JSON number lexeme: `-?(0|[1-9]\d*)(\.\d+)?([eE][+-]?\d+)?`. -/
def parseJNum (s : Str) : Option (Str × Str) :=
  let (neg, s1) : Str × Str :=
    match s with
    | '-' :: r => (['-'], r)
    | _ => ([], s)
  match s1 with
  | [] => none
  | c :: r =>
    if c = '0' ∨ ¬c.isDigit then
      if c = '0' then
        let intPart : Str := ['0']
        let rest := r
        let (frac, rest2) : Str × Str :=
          match rest with
          | '.' :: d :: r2 =>
            if d.isDigit then
              ('.' :: d :: (r2.takeWhile Char.isDigit), r2.dropWhile Char.isDigit)
            else ([], rest)
          | _ => ([], rest)
        let (ex, rest3) : Str × Str :=
          match rest2 with
          | e :: '+' :: d :: r3 =>
            if (e = 'e' ∨ e = 'E') ∧ d.isDigit then
              (e :: '+' :: d :: (r3.takeWhile Char.isDigit), r3.dropWhile Char.isDigit)
            else ([], rest2)
          | e :: '-' :: d :: r3 =>
            if (e = 'e' ∨ e = 'E') ∧ d.isDigit then
              (e :: '-' :: d :: (r3.takeWhile Char.isDigit), r3.dropWhile Char.isDigit)
            else ([], rest2)
          | e :: d :: r3 =>
            if (e = 'e' ∨ e = 'E') ∧ d.isDigit then
              (e :: d :: (r3.takeWhile Char.isDigit), r3.dropWhile Char.isDigit)
            else ([], rest2)
          | _ => ([], rest2)
        some (neg ++ intPart ++ frac ++ ex, rest3)
      else none
    else
      let intPart : Str := c :: r.takeWhile Char.isDigit
      let rest := r.dropWhile Char.isDigit
      let (frac, rest2) : Str × Str :=
        match rest with
        | '.' :: d :: r2 =>
          if d.isDigit then
            ('.' :: d :: (r2.takeWhile Char.isDigit), r2.dropWhile Char.isDigit)
          else ([], rest)
        | _ => ([], rest)
      let (ex, rest3) : Str × Str :=
        match rest2 with
        | e :: '+' :: d :: r3 =>
          if (e = 'e' ∨ e = 'E') ∧ d.isDigit then
            (e :: '+' :: d :: (r3.takeWhile Char.isDigit), r3.dropWhile Char.isDigit)
          else ([], rest2)
        | e :: '-' :: d :: r3 =>
          if (e = 'e' ∨ e = 'E') ∧ d.isDigit then
            (e :: '-' :: d :: (r3.takeWhile Char.isDigit), r3.dropWhile Char.isDigit)
          else ([], rest2)
        | e :: d :: r3 =>
          if (e = 'e' ∨ e = 'E') ∧ d.isDigit then
            (e :: d :: (r3.takeWhile Char.isDigit), r3.dropWhile Char.isDigit)
          else ([], rest2)
        | _ => ([], rest2)
      some (neg ++ intPart ++ frac ++ ex, rest3)

/-- Python dict semantics for JSON object members (last duplicate wins,
keeping the first position). -/
def jinsert (d : List (Str × Json)) (k : Str) (v : Json) : List (Str × Json) :=
  match d with
  | [] => [(k, v)]
  | (k2, v2) :: rest =>
    if k2 = k then (k2, v) :: rest else (k2, v2) :: jinsert rest k v

/-- Expect a `:` token (member separator). -/
def expectColon : Str → Option Str
  | ':' :: r => some r
  | _ => none

/-- After an object member: `,` continues, `}` closes. -/
def objNext : Str → Option (Bool × Str)
  | ',' :: r => some (true, r)
  | '}' :: r => some (false, r)
  | _ => none

/-- After an array item: `,` continues, `]` closes. -/
def arrNext : Str → Option (Bool × Str)
  | ',' :: r => some (true, r)
  | ']' :: r => some (false, r)
  | _ => none

mutual

/-- One JSON value.  The fuel decreases at every recursive call; callers
pass a bound on the recursion depth. -/
def parseValue : Nat → Str → Option (Json × Str)
  | 0, _ => none
  | _ + 1, [] => none
  | fuel + 1, c :: cs =>
    if c = '"' then (parseJStr cs).map (fun p => (.str p.1, p.2))
    else if c = '{' then parseObjBody fuel (skipWs cs)
    else if c = '[' then parseArrBody fuel (skipWs cs)
    else
      match c :: cs with
      | 'n' :: 'u' :: 'l' :: 'l' :: r => some (.null, r)
      | 't' :: 'r' :: 'u' :: 'e' :: r => some (.bool true, r)
      | 'f' :: 'a' :: 'l' :: 's' :: 'e' :: r => some (.bool false, r)
      | 'N' :: 'a' :: 'N' :: r => some (.num ('N' :: 'a' :: 'N' :: []), r)
      | 'I' :: 'n' :: 'f' :: 'i' :: 'n' :: 'i' :: 't' :: 'y' :: r =>
        some (.num ("Infinity".toList), r)
      | '-' :: 'I' :: 'n' :: 'f' :: 'i' :: 'n' :: 'i' :: 't' :: 'y' :: r =>
        some (.num ("-Infinity".toList), r)
      | s => (parseJNum s).map (fun p => (.num p.1, p.2))

/-- Object body after `{` (whitespace already skipped). -/
def parseObjBody : Nat → Str → Option (Json × Str)
  | 0, _ => none
  | fuel + 1, s =>
    match s with
    | '}' :: r => some (.obj [], r)
    | _ => parseMembers fuel s []

/-- Members of an object: `"key": value` separated by commas. -/
def parseMembers : Nat → Str → List (Str × Json) → Option (Json × Str)
  | 0, _, _ => none
  | fuel + 1, s, acc =>
    match s with
    | '"' :: cs =>
      match parseJStr cs with
      | some (key, r1) =>
        match expectColon (skipWs r1) with
        | some r2 =>
          match parseValue fuel (skipWs r2) with
          | some (v, r3) =>
            match objNext (skipWs r3) with
            | some (true, r4) => parseMembers fuel (skipWs r4) (jinsert acc key v)
            | some (false, r4) => some (.obj (jinsert acc key v), r4)
            | none => none
          | none => none
        | none => none
      | none => none
    | _ => none

/-- Array body after `[` (whitespace already skipped). -/
def parseArrBody : Nat → Str → Option (Json × Str)
  | 0, _ => none
  | fuel + 1, s =>
    match s with
    | ']' :: r => some (.arr [], r)
    | _ => parseItems fuel s []

/-- Items of an array, separated by commas. -/
def parseItems : Nat → Str → List Json → Option (Json × Str)
  | 0, _, _ => none
  | fuel + 1, s, acc =>
    match parseValue fuel s with
    | some (v, r1) =>
      match arrNext (skipWs r1) with
      | some (true, r2) => parseItems fuel (skipWs r2) (acc ++ [v])
      | some (false, r2) => some (.arr (acc ++ [v]), r2)
      | none => none
    | none => none

end

/-- Model of `json.loads`: parse one value, allow surrounding whitespace,
reject trailing data.  The fuel bounds the recursion depth of the parser;
depth grows by at most three per consumed character, so `3·|s| + 3` is
sufficient for every input and the fuel never runs out. -/
def jsonLoads (s : Str) : Option Json :=
  match parseValue (3 * s.length + 3) (skipWs s) with
  | some (v, rest) => if (skipWs rest).isEmpty then some v else none
  | none => none

/-- `JsonFormatter.parse`: `json.loads`, with `JSONDecodeError` re-raised
as `ValueError("Invalid JSON format: ...")`.  The decoded value is
returned **unchecked** (no test that it is an object). -/
def JsonFormatter.parse (content : Str) : Except Str Json :=
  match jsonLoads content with
  | some v => .ok v
  | none => .error ("Invalid JSON format".toList)

/-- One hex digit of Python's `\uXXXX` escapes (lowercase). -/
def hexDigit (n : Nat) : Char :=
  if n < 10 then Char.ofNat (48 + n) else Char.ofNat (87 + n)

def hex4 (n : Nat) : Str :=
  [hexDigit (n / 4096 % 16), hexDigit (n / 256 % 16),
   hexDigit (n / 16 % 16), hexDigit (n % 16)]

/-- Escaping of one character by `json.dumps` (default `ensure_ascii`). -/
def jsonEscapeChar (c : Char) : Str :=
  if c = '"' then ['\\', '"']
  else if c = '\\' then ['\\', '\\']
  else if c = '\n' then ['\\', 'n']
  else if c = '\t' then ['\\', 't']
  else if c = '\r' then ['\\', 'r']
  else if c = '\x08' then ['\\', 'b']
  else if c = '\x0c' then ['\\', 'f']
  else if c.toNat < 32 then '\\' :: 'u' :: hex4 c.toNat
  else if c.toNat < 127 then [c]
  else if c.toNat < 65536 then '\\' :: 'u' :: hex4 c.toNat
  else
    ('\\' :: 'u' :: hex4 (55296 + (c.toNat - 65536) / 1024)) ++
    ('\\' :: 'u' :: hex4 (56320 + (c.toNat - 65536) % 1024))

/-- A JSON string literal as emitted by `json.dumps`. -/
def jsonQuote (s : Str) : Str :=
  '"' :: (s.flatMap jsonEscapeChar ++ ['"'])

/-- `JsonFormatter.format`: `json.dumps(secrets, indent=2)` for a flat
string-to-string dict, members in dict (insertion) order. -/
def JsonFormatter.format (secrets : List (Str × Str)) : Str :=
  match secrets with
  | [] => '{' :: '}' :: []
  | _ =>
    '{' :: '\n' ::
      (List.intercalate (',' :: '\n' :: [])
        (secrets.map (fun kv =>
          ' ' :: ' ' :: (jsonQuote kv.1 ++ ':' :: ' ' :: jsonQuote kv.2))))
      ++ '\n' :: '}' :: []

/-- Result of `read_secret`: the dotenv formatters return a dict of
strings, the JSON formatter returns whatever JSON value was decoded. -/
inductive Parsed where
  | kv (entries : List (Str × Str))
  | js (value : Json)

/-- `secret_formats.read_secret` composed with
`SecretFormatFactory.get_formatter`: dispatch on the format tag; unknown
tags raise `ValueError`. -/
def read_secret (content : Str) (format_type : String) : Except Str Parsed :=
  match format_type with
  | "dotenv_export" => .ok (.kv (DotenvExportFormatter.parse content))
  | "json" => (JsonFormatter.parse content).map .js
  | "dotenv_plain" => .ok (.kv (DotenvPlainFormatter.parse content))
  | _ => .error ("Unsupported secret format".toList)

/-! ### Restricted alphabets for the round-trip property (C3) -/

/-- Keys in the restricted round-trip class: nonempty words over the
regex class `[A-Za-z0-9_]` that both dotenv patterns use. -/
def validKey (k : Str) : Prop := k ≠ [] ∧ ∀ c ∈ k, wordChar c = true

/-- Values in the restricted round-trip class: nonempty printable-ASCII
strings without quotes or backslashes (the characters the source's regex
patterns and JSON escaping cannot round-trip). -/
def validVal (v : Str) : Prop :=
  v ≠ [] ∧ ∀ c ∈ v,
    32 ≤ c.toNat ∧ c.toNat ≤ 126 ∧ c ≠ '"' ∧ c ≠ '\'' ∧ c ≠ '\\'

/-- The member list of a `json.dumps(..., indent=2)` object as seen by the
parser after the leading indentation has been skipped (proof helper for
the JSON round trip). -/
def membersText : List (Str × Str) → Str
  | [] => []
  | kv :: rest =>
    jsonQuote kv.1 ++ ':' :: ' ' :: (jsonQuote kv.2 ++
      (match rest with
       | [] => '\n' :: '}' :: []
       | _ :: _ => ',' :: '\n' :: ' ' :: ' ' :: membersText rest))

/-! ## The path-format resolver (`utils.get_path_format`) -/

/-- The NamedTuple `utils.AwsKeyNames` of AWS credential key names. -/
structure AwsKeyNames where
  access_key : String
  secret_key : String
deriving DecidableEq

/-- An `aws_keys` sub-dict as it appears in the YAML config; either entry
may be missing, and reading a missing one raises `KeyError`. -/
structure AwsKeysCfg where
  access_key : Option String
  secret_key : Option String

/-- A path rule dict inside a service's `paths` list.  The source reads
`path_config['path']` and `path_config['format']` unconditionally, so the
model makes them mandatory; `key` and `aws_keys` are optional. -/
structure PathConfig where
  path : Str
  format : String
  key : Option String
  aws_keys : Option AwsKeysCfg

/-- An element of a service's `paths` list: a rule dict, or any non-dict
value, which the `isinstance(path_config, dict)` test skips. -/
inductive PathEntry where
  | cfg (pc : PathConfig)
  | nondict

/-- A value of an environment's config dict: a service dict carrying a
`paths` list, or anything else, which the
`isinstance(service, dict) and 'paths' in service` test skips.  The
resolver iterates `env_config.values()`, so only the values matter, in
insertion order. -/
inductive ServiceEntry where
  | svc (paths : List PathEntry)
  | other

/-- One `config['vault']['formats']` entry: `path_patterns` defaults to
the empty list (`format_config.get('path_patterns', [])`) and `aws_keys`
is optional. -/
structure FormatConfig where
  path_patterns : List Str
  aws_keys : Option AwsKeysCfg

/-- The slice of the YAML config that `get_path_format` reads:
`config['environments']` (each environment's service values, in insertion
order) and `config['vault']['formats']` (in insertion order). -/
structure Config where
  environments : List (String × List ServiceEntry)
  formats : List (String × FormatConfig)

/-- Python dict lookup `d[k]` on an association list with `String` keys. -/
def slookup {α : Type} (k : String) : List (String × α) → Option α
  | [] => none
  | (k2, v) :: rest => if k = k2 then some v else slookup k rest

/-- Python `s.replace(pat, '')` for a non-empty `pat`: remove every
leftmost non-overlapping occurrence.  The fuel only bounds the recursion
depth; `s.length + 1` always suffices because every step consumes at
least one character of `s`. -/
def removePat (pat : Str) : Nat → Str → Str
  | 0, s => s
  | _ + 1, [] => []
  | fuel + 1, c :: cs =>
    if startsWithL pat (c :: cs) then removePat pat fuel ((c :: cs).drop pat.length)
    else c :: removePat pat fuel cs

/-- The first line of `get_path_format`:
`clean_path = path.replace("kv/data/", "")`. -/
def cleanPath6 (path : Str) : Str :=
  removePat ("kv/data/".toList) (path.length + 1) path

/-- Python `str.lower` on the ASCII range used by config paths. -/
def lowerL (s : Str) : Str := s.map Char.toLower

/-- The inner rule scan of `get_path_format`: the first rule dict of a
`paths` list whose configured `path` ends with the cleaned path. -/
def findRuleInEntries (clean_path : Str) : List PathEntry → Option PathConfig
  | [] => none
  | .cfg pc :: rest =>
    if endsWithL clean_path pc.path then some pc
    else findRuleInEntries clean_path rest
  | .nondict :: rest => findRuleInEntries clean_path rest

/-- The outer rule scan of `get_path_format`: service values in insertion
order, delegating to the inner scan and keeping its first hit. -/
def findRuleInServices (clean_path : Str) : List ServiceEntry → Option PathConfig
  | [] => none
  | .svc entries :: rest =>
    match findRuleInEntries clean_path entries with
    | some pc => some pc
    | none => findRuleInServices clean_path rest
  | .other :: rest => findRuleInServices clean_path rest

/-- The pattern scan of `get_path_format`: the first format whose
`path_patterns` contains a member occurring as a substring of the
lower-cased cleaned path (`pattern in clean_path.lower()`). -/
def findPatternFmt (lower_clean : Str) :
    List (String × FormatConfig) → Option (String × FormatConfig)
  | [] => none
  | (format_type, format_config) :: rest =>
    if format_config.path_patterns.any (fun pat => subL pat lower_clean) then
      some (format_type, format_config)
    else findPatternFmt lower_clean rest

/-- The resolver `utils.get_path_format` (lines 113 to 189).  The
`Except` channel models the `KeyError`s the source can raise: an unknown
environment, a rule `aws_keys` dict missing an entry, and an unknown
format looked up in `config['vault']['formats']` by the `elif` test. -/
def get_path_format (config : Config) (environment : String) (path : Str) :
    Except String (String × String × AwsKeyNames) :=
  match slookup environment config.environments with
  | none => .error "KeyError: environment"
  | some env_config =>
    match findRuleInServices (cleanPath6 path) env_config with
    | some path_config =>
      let format_type := path_config.format
      let key : String :=
        match path_config.key with
        | none =>
          if format_type = "json" then "secrets"
          else if format_type = "dotenv_plain" then "dotenv"
          else "dotenv"
        | some k => k
      match path_config.aws_keys with
      | some a =>
        match a.access_key, a.secret_key with
        | some ak, some sk => .ok (format_type, key, ⟨ak, sk⟩)
        | _, _ => .error "KeyError: aws_keys"
      | none =>
        match slookup format_type config.formats with
        | none => .error "KeyError: formats"
        | some fc =>
          match fc.aws_keys with
          | some fa =>
            match fa.access_key, fa.secret_key with
            | some ak, some sk => .ok (format_type, key, ⟨ak, sk⟩)
            | _, _ => .error "KeyError: aws_keys"
          | none =>
            .ok (format_type, key, ⟨"AWS_ACCESS_KEY_ID", "AWS_SECRET_ACCESS_KEY"⟩)
    | none =>
      match findPatternFmt (lowerL (cleanPath6 path)) config.formats with
      | some (format_type, format_config) =>
        let key : String :=
          if format_type = "json" then "secrets"
          else if format_type = "dotenv_plain" then "dotenv"
          else "dotenv"
        .ok (format_type, key,
          ⟨(format_config.aws_keys.bind (fun a => a.access_key)).getD "AWS_ACCESS_KEY_ID",
           (format_config.aws_keys.bind (fun a => a.secret_key)).getD "AWS_SECRET_ACCESS_KEY"⟩)
      | none =>
        .ok ("dotenv_export", "dotenv", ⟨"AWS_ACCESS_KEY_ID", "AWS_SECRET_ACCESS_KEY"⟩)

/-- Spec-side description of what an explicit path rule resolves to,
independent of the pattern scan: the rule's own format, its `key` (or the
inferred one), and AWS names from the rule, else from the rule's format
entry, else the defaults. -/
def resolveRuleSpec (config : Config) (path_config : PathConfig) :
    Except String (String × String × AwsKeyNames) :=
  let format_type := path_config.format
  let key : String :=
    match path_config.key with
    | none =>
      if format_type = "json" then "secrets"
      else if format_type = "dotenv_plain" then "dotenv"
      else "dotenv"
    | some k => k
  match path_config.aws_keys with
  | some a =>
    match a.access_key, a.secret_key with
    | some ak, some sk => .ok (format_type, key, ⟨ak, sk⟩)
    | _, _ => .error "KeyError: aws_keys"
  | none =>
    match slookup format_type config.formats with
    | none => .error "KeyError: formats"
    | some fc =>
      match fc.aws_keys with
      | some fa =>
        match fa.access_key, fa.secret_key with
        | some ak, some sk => .ok (format_type, key, ⟨ak, sk⟩)
        | _, _ => .error "KeyError: aws_keys"
      | none =>
        .ok (format_type, key, ⟨"AWS_ACCESS_KEY_ID", "AWS_SECRET_ACCESS_KEY"⟩)

/-- Spec-side description of what a pattern-scan hit resolves to,
independent of the explicit rules: the format's inferred key and its
`aws_keys` entries with per-field defaults. -/
def patternTripleSpec (format_type : String) (format_config : FormatConfig) :
    String × String × AwsKeyNames :=
  (format_type,
   if format_type = "json" then "secrets"
   else if format_type = "dotenv_plain" then "dotenv"
   else "dotenv",
   ⟨(format_config.aws_keys.bind (fun a => a.access_key)).getD "AWS_ACCESS_KEY_ID",
    (format_config.aws_keys.bind (fun a => a.secret_key)).getD "AWS_SECRET_ACCESS_KEY"⟩)

/-! ## Content sniffing in `utils.rotate_secret_kv` -/

/-- A current field value in `rotate_secret_kv`: a string, or any
non-string value, which the `isinstance(v, str)` test skips. -/
inductive FieldVal where
  | str (s : Str)
  | nonstr

/-- The sniffing loop of `rotate_secret_kv` (lines 234 to 247): scan the
current data in iteration order and break at the first string value that
matches one of the three shapes, returning the chosen format and the
breaking field's key; `none` when the loop finishes without a break. -/
def sniffLoop : List (String × FieldVal) → Option (String × String)
  | [] => none
  | (k, v) :: rest =>
    match v with
    | .str s =>
      if startsWithL ['{'] s && endsWithL ['}'] s then some ("json", k)
      else if subL ['='] s && !subL ("export".toList) s then some ("dotenv_plain", k)
      else if subL ("export".toList) s then some ("dotenv_export", k)
      else sniffLoop rest
    | .nonstr => sniffLoop rest

/-- Format and field detection of `rotate_secret_kv` when no config is
given (lines 231 to 254): the sniffing loop with its `dotenv_export`
default, followed by the `if not secret_key` default for the key — which
also fires when the breaking field's key is the empty string, since `''`
is falsy in Python. -/
def sniffFormat (current_data : List (String × FieldVal)) : String × String :=
  match sniffLoop current_data with
  | some (format_type, k) =>
    if k = "" then
      (format_type, if format_type = "json" then "secrets" else "dotenv")
    else (format_type, k)
  | none => ("dotenv_export", "dotenv")

/-- Spec-side shape test on one field value, as the claim describes it:
JSON-object-shaped selects json, `=` without `export` selects
dotenv_plain, containing `export` selects dotenv_export. -/
def sniffShape (s : Str) : Option String :=
  if startsWithL ['{'] s && endsWithL ['}'] s then some "json"
  else if subL ['='] s && !subL ("export".toList) s then some "dotenv_plain"
  else if subL ("export".toList) s then some "dotenv_export"
  else none

/-- Spec-side first-match description of the sniffing loop: the first
field in iteration order whose string value matches a shape. -/
def sniffSpec (current_data : List (String × FieldVal)) : Option (String × String) :=
  current_data.findSome? (fun kv =>
    match kv.2 with
    | .str s => (sniffShape s).map (fun format_type => (format_type, kv.1))
    | .nonstr => none)

/-! ## Batch rotation (`rotate_secrets.rotate_secrets_for_app`) -/

/-- One result row appended by `rotate_secrets_for_app`.  `old_value` and
`new_value` carry whatever the per-path rotation returned — a string, or
for dotenv content a dict of old values — hence the type parameters. -/
structure RotOutcome (α β : Type) where
  path : Str
  success : Bool
  old_value : Option α
  new_value : Option β

/-- The row `rotate_secrets_for_app` appends for one path: success means
`old_value is not None and rotated_value is not None`. -/
def mkOutcome {α β : Type} (path : Str) (r : Option α × Option β) : RotOutcome α β :=
  { path := path, success := r.1.isSome && r.2.isSome,
    old_value := r.1, new_value := r.2 }

/-- The loop of `rotate_secrets_for_app` (lines 130 to 142), appending
one result row per path to `results`.  The parameter `rotate_secret`
stands for the bound call `self.rotate_secret(path, key, new_value)`:
its whole body sits in a catch-all `except` returning `(None, None)`, so
per call it is a total function of the path (the key and new value are
fixed for the entire loop and absorbed into it). -/
def rotate_secrets_for_app {α β : Type} (rotate_secret : Str → Option α × Option β) :
    List Str → List (RotOutcome α β) → List (RotOutcome α β)
  | [], results => results
  | path :: rest, results =>
    let r := rotate_secret path
    rotate_secrets_for_app rotate_secret rest
      (results ++ [{ path := path, success := r.1.isSome && r.2.isSome,
                     old_value := r.1, new_value := r.2 }])

/-! ### Basic lemmas about the string utilities -/

lemma exportKw_eq : "export ".toList = ['e', 'x', 'p', 'o', 'r', 't', ' '] := rfl

lemma startsWithL_self_append (p r : Str) : startsWithL p (p ++ r) = true := by
  induction p with
  | nil => rfl
  | cons a t ih => simp [startsWithL, ih]

lemma splitOnce_sep_not_mem (sep : Char) : ∀ s : Str, sep ∉ (splitOnce sep s).1 := by
  intro s
  induction s with
  | nil => simp [splitOnce]
  | cons c cs ih =>
    by_cases h : c = sep
    · simp [splitOnce, h]
    · simp [splitOnce, h]
      exact ⟨fun hc => h hc.symm, ih⟩

lemma splitOnce_append {sep : Char} {k : Str} (rest : Str) (hk : sep ∉ k) :
    splitOnce sep (k ++ sep :: rest) = (k, some rest) := by
  induction k with
  | nil => simp [splitOnce]
  | cons c cs ih =>
    have hc : ¬c = sep := by
      intro h; exact hk (h ▸ List.mem_cons_self c cs)
    have hcs : sep ∉ cs := fun h => hk (List.mem_cons_of_mem c h)
    simp [splitOnce, hc, ih hcs]

lemma dropWhile_head_false {p : Char → Bool} :
    ∀ (l : Str) {x xs}, l.dropWhile p = x :: xs → p x = false := by
  intro l
  induction l with
  | nil => intro x xs h; simp [List.dropWhile] at h
  | cons a t ih =>
    intro x xs h
    rw [List.dropWhile_cons] at h
    split at h
    · exact ih h
    · cases h; simp_all

lemma dropWhile_cons_of_false {p : Char → Bool} {x : Char} {xs : Str}
    (h : p x = false) : (x :: xs).dropWhile p = x :: xs := by
  rw [List.dropWhile_cons, h]; simp

lemma dropWhile_subset (p : Char → Bool) : ∀ l : Str, l.dropWhile p ⊆ l := by
  intro l
  induction l with
  | nil => simp [List.dropWhile]
  | cons a t ih =>
    rw [List.dropWhile_cons]
    split
    · exact fun x hx => List.mem_cons_of_mem a (ih hx)
    · exact fun x hx => hx

lemma stripChars_subset (p : Char → Bool) (s : Str) : stripChars p s ⊆ s := by
  intro x hx
  unfold stripChars at hx
  rw [List.mem_reverse] at hx
  have h1 := dropWhile_subset p (s.dropWhile p).reverse hx
  rw [List.mem_reverse] at h1
  exact dropWhile_subset p s h1

lemma stripChars_eq_self {p : Char → Bool} {s : Str}
    (hh : ∀ x xs, s = x :: xs → p x = false)
    (hl : ∀ ys y, s = ys ++ [y] → p y = false) : stripChars p s = s := by
  match s with
  | [] => rfl
  | x :: xs =>
    have h1 : (x :: xs).dropWhile p = x :: xs :=
      dropWhile_cons_of_false (hh x xs rfl)
    unfold stripChars
    rw [h1]
    have hne : x :: xs ≠ [] := by simp
    have hdec : x :: xs = (x :: xs).dropLast ++ [(x :: xs).getLast hne] :=
      (List.dropLast_append_getLast hne).symm
    have hy : p ((x :: xs).getLast hne) = false := hl _ _ hdec
    rw [hdec, List.reverse_append]
    simp only [List.reverse_cons, List.reverse_nil, List.nil_append,
      List.singleton_append]
    rw [dropWhile_cons_of_false hy]
    simp

lemma stripChars_head_false {p : Char → Bool} {s : Str} :
    ∀ x xs, stripChars p s = x :: xs → p x = false := by
  intro x xs h
  have h1 : (List.dropWhile p (s.dropWhile p).reverse).reverse = x :: xs := h
  have hs : s.dropWhile p =
      (x :: xs) ++ (List.takeWhile p (s.dropWhile p).reverse).reverse := by
    calc s.dropWhile p
        = ((s.dropWhile p).reverse).reverse := (List.reverse_reverse _).symm
      _ = (List.takeWhile p (s.dropWhile p).reverse
            ++ List.dropWhile p (s.dropWhile p).reverse).reverse := by
            rw [List.takeWhile_append_dropWhile]
      _ = (List.dropWhile p (s.dropWhile p).reverse).reverse
            ++ (List.takeWhile p (s.dropWhile p).reverse).reverse := by
            rw [List.reverse_append]
      _ = (x :: xs) ++ (List.takeWhile p (s.dropWhile p).reverse).reverse := by
            rw [h1]
  exact dropWhile_head_false s hs

lemma stripChars_getLast_false {p : Char → Bool} {s : Str} :
    ∀ ys y, stripChars p s = ys ++ [y] → p y = false := by
  intro ys y h
  have h2 : List.dropWhile p (s.dropWhile p).reverse = y :: ys.reverse := by
    have h3 := congrArg List.reverse h
    simpa [stripChars, List.reverse_append] using h3
  exact dropWhile_head_false _ h2

lemma stripChars_idem (p : Char → Bool) (s : Str) :
    stripChars p (stripChars p s) = stripChars p s :=
  stripChars_eq_self (fun x xs h => stripChars_head_false x xs h)
    (fun ys y h => stripChars_getLast_false ys y h)

lemma pystrip_eq_stripChars (s : Str) : pystrip s = stripChars pySpace s := rfl

lemma pystrip_idem (s : Str) : pystrip (pystrip s) = pystrip s :=
  stripChars_idem pySpace s

/-! ### Lemmas about the canonical rewritten line -/

lemma canonLine_eq (k v : Str) :
    canonLine k v =
      'e' :: 'x' :: 'p' :: 'o' :: 'r' :: 't' :: ' ' ::
        (k ++ '=' :: '"' :: (v ++ ['"'])) := by
  rw [canonLine, exportKw_eq]; rfl

lemma canonLine_concat (k v : Str) :
    canonLine k v =
      ('e' :: 'x' :: 'p' :: 'o' :: 'r' :: 't' :: ' ' :: (k ++ '=' :: '"' :: v))
        ++ ['"'] := by
  rw [canonLine_eq]; simp

lemma pystrip_canonLine (k v : Str) : pystrip (canonLine k v) = canonLine k v := by
  rw [pystrip_eq_stripChars]
  apply stripChars_eq_self
  · intro x xs h
    rw [canonLine_eq] at h
    injection h with h1 _
    rw [← h1]; decide
  · intro ys y h
    rw [canonLine_concat] at h
    have := (List.getLast?_concat
      (a := '"')
      ('e' :: 'x' :: 'p' :: 'o' :: 'r' :: 't' :: ' ' :: (k ++ '=' :: '"' :: v)))
    rw [h, List.getLast?_concat] at this
    injection this with h2
    rw [h2]; decide

lemma startsWith_canonLine (k v : Str) :
    startsWithL "export ".toList (canonLine k v) = true := by
  rw [exportKw_eq, canonLine_eq]
  simp [startsWithL]

lemma drop7_canonLine (k v : Str) :
    (canonLine k v).drop 7 = k ++ '=' :: '"' :: (v ++ ['"']) := by
  rw [canonLine_eq]; rfl

/-- Unfolded form of `lineKey` (zeta-reduced). -/
lemma lineKey_def (line : Str) :
    lineKey line =
      if startsWithL "export ".toList (pystrip line) = true then
        some (pystrip (splitOnce '=' ((pystrip line).drop 7)).1)
      else none := rfl

/-- Unfolded form of `processLine` (zeta-reduced). -/
lemma processLine_def (u : List (Str × Str)) (l : Str) :
    processLine u l =
      if startsWithL "export ".toList (pystrip l) = true then
        match dlookup (pystrip (splitOnce '=' ((pystrip l).drop 7)).1) u with
        | some newv =>
          match (splitOnce '=' ((pystrip l).drop 7)).2 with
          | none => .error ()
          | some rest =>
            .ok (canonLine (pystrip (splitOnce '=' ((pystrip l).drop 7)).1) newv,
                 some (pystrip (splitOnce '=' ((pystrip l).drop 7)).1,
                       stripChars isQuote (pystrip rest)))
        | none => .ok (l, none)
      else .ok (l, none) := rfl

lemma lineKey_canonLine {k : Str} (v : Str) (hk : pystrip k = k)
    (hke : '=' ∉ k) : lineKey (canonLine k v) = some k := by
  rw [lineKey_def, pystrip_canonLine, startsWith_canonLine]
  simp only [if_true]
  rw [drop7_canonLine, splitOnce_append _ hke]
  simp [hk]

/-- The key extracted by `lineKey` is already stripped and `=`-free. -/
lemma lineKey_shape {line key : Str} (h : lineKey line = some key) :
    pystrip key = key ∧ '=' ∉ key := by
  rw [lineKey_def] at h
  split at h
  · injection h with h1
    constructor
    · rw [← h1]; exact pystrip_idem _
    · rw [← h1]
      intro hmem
      exact splitOnce_sep_not_mem '=' _
        (stripChars_subset pySpace _ hmem)
  · exact absurd h (by simp)

/-! ### Characterization of the updater's per-line behaviour -/

lemma processLine_ok_eq {u : List (Str × Str)} {l : Str}
    {p : Str × Option (Str × Str)} (h : processLine u l = .ok p) :
    p = (lineOutFor u l, lineEntryFor u l) := by
  rw [processLine_def] at h
  unfold lineOutFor lineEntryFor
  rw [lineKey_def]
  unfold lineOldValue
  by_cases hsw : startsWithL "export ".toList (pystrip l) = true
  · simp only [hsw, if_true] at h ⊢
    cases hdl : dlookup (pystrip (splitOnce '=' ((pystrip l).drop 7)).1) u with
    | none => simp only [hdl] at h ⊢; exact (Except.ok.inj h).symm
    | some nv =>
      simp only [hdl] at h ⊢
      cases hp2 : (splitOnce '=' ((pystrip l).drop 7)).2 with
      | none => rw [hp2] at h; exact absurd h (by simp)
      | some rest =>
        rw [hp2] at h
        simp only [hp2, Option.map_some']
        exact (Except.ok.inj h).symm
  · simp only [Bool.not_eq_true] at hsw
    simp only [hsw, Bool.false_eq_true, if_false] at h ⊢
    exact (Except.ok.inj h).symm

lemma processLine_ok_oldValue {u : List (Str × Str)} {l key nv : Str}
    {p : Str × Option (Str × Str)} (h : processLine u l = .ok p)
    (hk : lineKey l = some key) (hku : dlookup key u = some nv) :
    ∃ r, lineOldValue l = some r := by
  rw [processLine_def] at h
  rw [lineKey_def] at hk
  unfold lineOldValue
  by_cases hsw : startsWithL "export ".toList (pystrip l) = true
  · simp only [hsw, if_true] at h hk
    injection hk with hk1
    rw [hk1, hku] at h
    cases hp2 : (splitOnce '=' ((pystrip l).drop 7)).2 with
    | none => rw [hp2] at h; exact absurd h (by simp)
    | some rest =>
      exact ⟨stripChars isQuote (pystrip rest), rfl⟩
  · simp only [Bool.not_eq_true] at hsw
    rw [hsw] at hk
    exact absurd hk (by simp)

lemma eachLine_ok_eq {u : List (Str × Str)} :
    ∀ {ls : List Str} {ps}, eachLine u ls = .ok ps →
      ps = ls.map (fun l => (lineOutFor u l, lineEntryFor u l)) ∧
      ∀ l ∈ ls, ∃ p, processLine u l = .ok p := by
  intro ls
  induction ls with
  | nil =>
    intro ps h
    simp only [eachLine] at h
    exact ⟨(Except.ok.inj h).symm, by simp⟩
  | cons l t ih =>
    intro ps h
    unfold eachLine at h
    cases hp : processLine u l with
    | error e => rw [hp] at h; cases h
    | ok p =>
      rw [hp] at h
      cases ht : eachLine u t with
      | error e => rw [ht] at h; cases h
      | ok ps' =>
        rw [ht] at h
        have hps : ps = p :: ps' := (Except.ok.inj h).symm
        obtain ⟨ih1, ih2⟩ := ih ht
        refine ⟨?_, ?_⟩
        · rw [hps, ih1, processLine_ok_eq hp]
          simp
        · intro l2 hl2
          rcases List.mem_cons.mp hl2 with h2 | h2
          · exact ⟨p, h2 ▸ hp⟩
          · exact ih2 l2 h2

/-! ### Dict lemmas -/

lemma dlookup_dinsert (k k2 v : Str) :
    ∀ d, dlookup k (dinsert d k2 v) =
      if k = k2 then some v else dlookup k d := by
  intro d
  induction d with
  | nil => simp [dinsert, dlookup]
  | cons e rest ih =>
    obtain ⟨ek, ev⟩ := e
    by_cases h2 : ek = k2
    · subst h2
      by_cases h3 : k = ek <;> simp [dinsert, dlookup, h3]
    · by_cases h3 : k = ek
      · subst h3
        simp [dinsert, dlookup, h2, Ne.symm h2]
      · simp [dinsert, dlookup, h2, h3, ih]

lemma dlookup_foldl_dinsert (k : Str) :
    ∀ (es : List (Str × Str)) (d : List (Str × Str)),
      dlookup k (es.foldl (fun d kv => dinsert d kv.1 kv.2) d) =
        match es.reverse.find? (fun e => decide (e.1 = k)) with
        | some e => some e.2
        | none => dlookup k d := by
  intro es
  induction es with
  | nil => intro d; simp
  | cons e t ih =>
    intro d
    rw [List.foldl_cons, ih]
    rw [List.reverse_cons, List.find?_append]
    cases hf : t.reverse.find? (fun e => decide (e.1 = k)) with
    | some x => simp [Option.or]
    | none =>
      simp only [Option.none_or]
      by_cases hk : e.1 = k
      · simp only [List.find?, hk, decide_True, Option.some.injEq]
        rw [dlookup_dinsert]
        simp [hk]
      · simp only [List.find?, hk, decide_False]
        rw [dlookup_dinsert]
        simp [Ne.symm hk, hk]

lemma dlookup_dofList (k : Str) (es : List (Str × Str)) :
    dlookup k (dofList es) =
      (es.reverse.find? (fun e => decide (e.1 = k))).map Prod.snd := by
  rw [dofList, dlookup_foldl_dinsert]
  cases es.reverse.find? (fun e => decide (e.1 = k)) <;> simp [dlookup]

lemma dlookup_dofList_none {k : Str} {es : List (Str × Str)}
    (h : ∀ e ∈ es, e.1 ≠ k) : dlookup k (dofList es) = none := by
  rw [dlookup_dofList]
  have : es.reverse.find? (fun e => decide (e.1 = k)) = none := by
    rw [List.find?_eq_none]
    intro e he
    simpa using h e (List.mem_reverse.mp he)
  rw [this]; rfl

/-! ### Structure of a successful `update_dotenv_content` call -/

/-- A successful call either hit the empty-content/empty-updates guard and
returned its input, or processed every line independently. -/
lemma udc_ok_cases {c : Str} {u : List (Str × Str)} {txt : Str}
    {old : List (Str × Str)}
    (h : update_dotenv_content c u = .ok (txt, old)) :
    (txt = c ∧ old = [] ∧ (c.isEmpty || u.isEmpty) = true) ∨
    ((c.isEmpty || u.isEmpty) = false ∧
     txt = List.intercalate ['\n'] ((pyLines c).map (lineOutFor u)) ∧
     old = dofList ((pyLines c).filterMap (lineEntryFor u)) ∧
     ∀ l ∈ pyLines c, ∃ p, processLine u l = .ok p) := by
  unfold update_dotenv_content at h
  cases hg : (c.isEmpty || u.isEmpty) with
  | true =>
    rw [hg] at h
    simp only [if_true] at h
    have := Except.ok.inj h
    exact Or.inl ⟨(congrArg Prod.fst this).symm, (congrArg Prod.snd this).symm, rfl⟩
  | false =>
    rw [hg] at h
    simp only [Bool.false_eq_true, if_false] at h
    cases hel : eachLine u (pyLines c) with
    | error e => rw [hel] at h; cases h
    | ok ps =>
      rw [hel] at h
      obtain ⟨hps, hall⟩ := eachLine_ok_eq hel
      have hinj := Except.ok.inj h
      injection hinj with h1 h2
      refine Or.inr ⟨rfl, ?_, ?_, hall⟩
      · rw [← h1]
        simp only [hps, List.map_map]
        rfl
      · rw [← h2]
        simp only [hps, List.filterMap_map]
        rfl

lemma isEmpty_false_of_ne {u : List (Str × Str)} (hu : u ≠ []) :
    u.isEmpty = false := by
  cases u with
  | nil => exact absurd rfl hu
  | cons a t => rfl

lemma pyLines_nil : pyLines [] = [[]] := rfl

lemma lineKey_nil : lineKey [] = none := rfl

/-- In the non-guard case, the key `k` is absent from every entry recorded
for lines whose key differs from `k`. -/
lemma entry_key_eq_lineKey {u : List (Str × Str)} {line : Str}
    {e : Str × Str} (h : lineEntryFor u line = some e) :
    lineKey line = some e.1 := by
  unfold lineEntryFor at h
  cases hlk : lineKey line with
  | none => rw [hlk] at h; cases h
  | some key =>
    rw [hlk] at h
    dsimp only at h
    cases hdl : dlookup key u with
    | none => rw [hdl] at h; dsimp only at h; cases h
    | some _ =>
      rw [hdl] at h
      dsimp only at h
      cases hov : lineOldValue line with
      | none => rw [hov] at h; cases h
      | some r =>
        rw [hov] at h
        injection h with h1
        rw [← h1]

end Vault

namespace Vault

/-! ## Claim theorems for the updater (C1, C2, C9) -/

/-- C1, counterexample to the claim as stated: for `T = export A="1"` and
`U = {B: 2}`, the key `B` occurs on no line of `T`, yet the returned text is
unchanged — it contains no appended line encoding `B` (not even the
substring `export B` occurs). -/
theorem c1_counterexample :
    update_dotenv_content ("export A=\"1\"".toList)
        [("B".toList, "2".toList)] =
      .ok ("export A=\"1\"".toList, []) ∧
    subL ("export B".toList) ("export A=\"1\"".toList) = false := by
  constructor
  · rfl
  · rfl

/-- C1 (amended): if a key `k ∈ U` does not occur as the key of any line of
`T`, then `update_dotenv_content` does **not** append a line for `k`: the
returned text consists of exactly one output line per input line, none of
which has key `k`, and the returned old-value mapping has no entry for
`k`. -/
theorem c1_absent_key_not_appended (c : Str) (u : List (Str × Str))
    (k nv txt : Str) (old : List (Str × Str))
    (hku : dlookup k u = some nv)
    (h : update_dotenv_content c u = .ok (txt, old))
    (habs : ∀ line ∈ pyLines c, lineKey line ≠ some k) :
    dlookup k old = none ∧
    ∃ outLines : List Str,
      txt = List.intercalate ['\n'] outLines ∧
      outLines.length = (pyLines c).length ∧
      ∀ line ∈ outLines, lineKey line ≠ some k := by
  rcases udc_ok_cases h with ⟨htxt, hold, hg⟩ | ⟨hg, htxt, hold, hok⟩
  · -- guard case: u is nonempty (it contains k), so c = []
    have hu : u.isEmpty = false := by
      cases u with
      | nil => simp [dlookup] at hku
      | cons a t => rfl
    rw [hu, Bool.or_false] at hg
    have hc : c = [] := by
      cases c with
      | nil => rfl
      | cons a t => simp [List.isEmpty] at hg
    subst hc
    subst htxt
    subst hold
    refine ⟨rfl, [[]], by rfl, by rw [pyLines_nil], ?_⟩
    intro line hline
    rw [List.mem_singleton] at hline
    subst hline
    rw [lineKey_nil]
    simp
  · constructor
    · rw [hold]
      apply dlookup_dofList_none
      intro e he
      rw [List.mem_filterMap] at he
      obtain ⟨line, hline, hent⟩ := he
      have hlk := entry_key_eq_lineKey hent
      intro hek
      exact habs line hline (hek ▸ hlk)
    · refine ⟨(pyLines c).map (lineOutFor u), htxt, by simp, ?_⟩
      intro line hline
      rw [List.mem_map] at hline
      obtain ⟨l0, hl0, hout⟩ := hline
      subst hout
      unfold lineOutFor
      cases hlk : lineKey l0 with
      | none => dsimp only; exact habs l0 hl0
      | some key =>
        dsimp only
        cases hdl : dlookup key u with
        | none => dsimp only; exact habs l0 hl0
        | some nv2 =>
          dsimp only
          obtain ⟨hks, hke⟩ := lineKey_shape hlk
          rw [lineKey_canonLine nv2 hks hke]
          intro hc2
          injection hc2 with hc1
          exact habs l0 hl0 (hc1 ▸ hlk)

/-- C1 witness: the amended theorem applied at `T = export A="1"`,
`U = {B: 2}`. -/
theorem c1_witness :
    dlookup ("B".toList) ([] : List (Str × Str)) = none ∧
    ∃ outLines : List Str,
      ("export A=\"1\"".toList) = List.intercalate ['\n'] outLines ∧
      outLines.length = (pyLines ("export A=\"1\"".toList)).length ∧
      ∀ line ∈ outLines, lineKey line ≠ some ("B".toList) :=
  c1_absent_key_not_appended ("export A=\"1\"".toList)
    [("B".toList, "2".toList)] ("B".toList) ("2".toList)
    ("export A=\"1\"".toList) [] rfl rfl (by decide)

/-- C2, counterexample to the claim as stated: `T = "# c\nexport A=\"1\"\n"`
ends with a newline, but the updated text does not — the leading/trailing
newline structure of `T` is not preserved (the text is stripped first). -/
theorem c2_counterexample :
    update_dotenv_content ("# c\nexport A=\"1\"\n".toList)
        [("A".toList, "2".toList)] =
      .ok ("# c\nexport A=\"2\"".toList, [("A".toList, "1".toList)]) ∧
    ("# c\nexport A=\"1\"\n".toList).getLast? = some '\n' ∧
    ("# c\nexport A=\"2\"".toList).getLast? ≠ some '\n' := by
  refine ⟨rfl, rfl, ?_⟩
  decide

/-- C2 (amended): after stripping leading/trailing whitespace from `T`
(which the updater always does, dropping any trailing-newline structure),
every line whose key is not in `U` is preserved byte-identically at its
original line index, and the output has exactly one line per input line. -/
theorem c2_untouched_lines_preserved (c : Str) (u : List (Str × Str))
    (txt : Str) (old : List (Str × Str)) (hu : u ≠ [])
    (h : update_dotenv_content c u = .ok (txt, old)) :
    ∃ outLines : List Str,
      txt = List.intercalate ['\n'] outLines ∧
      outLines.length = (pyLines c).length ∧
      ∀ (i : Nat) (line : Str), (pyLines c)[i]? = some line →
        untouched u line → outLines[i]? = some line := by
  rcases udc_ok_cases h with ⟨htxt, hold, hg⟩ | ⟨hg, htxt, hold, hok⟩
  · -- guard case: u ≠ [] forces c = []
    rw [isEmpty_false_of_ne hu, Bool.or_false] at hg
    have hc : c = [] := by
      cases c with
      | nil => rfl
      | cons a t => simp [List.isEmpty] at hg
    subst hc
    subst htxt
    refine ⟨[[]], by rfl, by rw [pyLines_nil], ?_⟩
    intro i line hi hunt
    rw [pyLines_nil] at hi
    match i with
    | 0 =>
      simp only [List.getElem?_cons_zero, Option.some.injEq] at hi
      subst hi
      rfl
    | n + 1 => simp at hi
  · refine ⟨(pyLines c).map (lineOutFor u), htxt, by simp, ?_⟩
    intro i line hi hunt
    rw [List.getElem?_map, hi]
    simp only [Option.map_some', Option.some.injEq]
    unfold lineOutFor
    unfold untouched at hunt
    cases hlk : lineKey line with
    | none => rfl
    | some key =>
      rw [hlk] at hunt
      dsimp only at hunt
      dsimp only
      rw [hunt]

/-- Entries with key `k` in the recorded old values correspond exactly to
lines whose extracted key is `k` (scanning in any fixed order). -/
lemma findEntry_scan {u : List (Str × Str)} {k nv : Str}
    (hku : dlookup k u = some nv) :
    ∀ ls : List Str,
      (∀ l ∈ ls, lineKey l = some k → lineOldValue l ≠ none) →
      (ls.filterMap (lineEntryFor u)).find? (fun e => decide (e.1 = k)) =
        (ls.find? (fun l => decide (lineKey l = some k))).bind
          (fun l => (lineOldValue l).map (fun r => (k, r))) := by
  intro ls
  induction ls with
  | nil => intro _; rfl
  | cons l t ih =>
    intro hold
    have hold' : ∀ l2 ∈ t, lineKey l2 = some k → lineOldValue l2 ≠ none :=
      fun l2 h2 => hold l2 (List.mem_cons_of_mem l h2)
    rw [List.filterMap_cons]
    cases hlk : lineKey l with
    | none =>
      have hent : lineEntryFor u l = none := by
        unfold lineEntryFor; rw [hlk]
      rw [hent, List.find?_cons]
      have hpl : decide (lineKey l = some k) = false := by
        rw [hlk]; simp
      rw [hpl]
      exact ih hold'
    | some key =>
      by_cases hkk : key = k
      · subst hkk
        obtain ⟨r, hr⟩ : ∃ r, lineOldValue l = some r := by
          cases hov : lineOldValue l with
          | none => exact absurd hov (hold l (List.mem_cons_self l t) hlk)
          | some r => exact ⟨r, rfl⟩
        have hent : lineEntryFor u l = some (key, r) := by
          unfold lineEntryFor; rw [hlk]; dsimp only
          rw [hku, hr]; rfl
        rw [hent]
        rw [List.find?_cons]
        have : (decide ((key, r).1 = key)) = true := by simp
        rw [this]
        rw [List.find?_cons]
        have hpl : decide (lineKey l = some key) = true := by
          rw [hlk]; simp
        rw [hpl]
        simp [hr]
      · have hpl : decide (lineKey l = some k) = false := by
          rw [hlk]; simp [hkk]
        cases hent : lineEntryFor u l with
        | none =>
          rw [List.find?_cons, hpl]
          exact ih hold'
        | some e =>
          have hek : e.1 = key := by
            have := entry_key_eq_lineKey hent
            rw [hlk] at this
            exact (Option.some.inj this).symm
          rw [List.find?_cons]
          have : (decide (e.1 = k)) = false := by
            rw [hek]; simp [hkk]
          rw [this, List.find?_cons, hpl]
          exact ih hold'

/-- C9: when a key `k` of the update mapping occurs on several `export`
lines, every matching line is rewritten to the canonical double-quoted
form `export k="new"`, and the recorded old value for `k` is the
(unquoted) value of the **last** matching line. -/
theorem c9_duplicate_keys_all_rewritten (c : Str) (u : List (Str × Str))
    (k nv txt : Str) (old : List (Str × Str))
    (hku : dlookup k u = some nv)
    (h : update_dotenv_content c u = .ok (txt, old)) :
    ∃ outLines : List Str,
      txt = List.intercalate ['\n'] outLines ∧
      outLines.length = (pyLines c).length ∧
      (∀ (i : Nat) (line : Str), (pyLines c)[i]? = some line →
        lineKey line = some k → outLines[i]? = some (canonLine k nv)) ∧
      ∀ lastLine : Str,
        (pyLines c).reverse.find? (fun l => decide (lineKey l = some k)) =
          some lastLine →
        dlookup k old = lineOldValue lastLine := by
  rcases udc_ok_cases h with ⟨htxt, hold, hg⟩ | ⟨hg, htxt, hold, hok⟩
  · -- guard case: u nonempty, so c = []
    have hu : u.isEmpty = false := by
      cases u with
      | nil => simp [dlookup] at hku
      | cons a t => rfl
    rw [hu, Bool.or_false] at hg
    have hc : c = [] := by
      cases c with
      | nil => rfl
      | cons a t => simp [List.isEmpty] at hg
    subst hc
    subst htxt
    subst hold
    refine ⟨[[]], by rfl, by rw [pyLines_nil], ?_, ?_⟩
    · intro i line hi hlk
      rw [pyLines_nil] at hi
      match i with
      | 0 =>
        simp only [List.getElem?_cons_zero, Option.some.injEq] at hi
        subst hi
        rw [lineKey_nil] at hlk
        cases hlk
      | n + 1 => simp at hi
    · intro lastLine hfind
      rw [pyLines_nil] at hfind
      have : decide (lineKey ([] : Str) = some k) = false := by
        rw [lineKey_nil]; simp
      simp only [List.reverse_singleton, List.find?_cons, this] at hfind
      cases hfind
  · refine ⟨(pyLines c).map (lineOutFor u), htxt, by simp, ?_, ?_⟩
    · intro i line hi hlk
      rw [List.getElem?_map, hi]
      simp only [Option.map_some', Option.some.injEq]
      unfold lineOutFor
      rw [hlk]
      dsimp only
      rw [hku]
    · intro lastLine hfind
      have holdv : ∀ l ∈ (pyLines c).reverse, lineKey l = some k →
          lineOldValue l ≠ none := by
        intro l hl hlk hov
        obtain ⟨p, hp⟩ := hok l (List.mem_reverse.mp hl)
        obtain ⟨r, hr⟩ := processLine_ok_oldValue hp hlk hku
        rw [hr] at hov
        cases hov
      rw [hold, dlookup_dofList, ← List.filterMap_reverse,
        findEntry_scan hku _ holdv, hfind]
      cases hov : lineOldValue lastLine with
      | none =>
        exact absurd hov (holdv lastLine (List.mem_of_find?_eq_some hfind)
          (by simpa using List.find?_some hfind))
      | some r => simp [hov]

/-- C9 witness: the theorem applied at a text where `K` occurs on two
`export` lines with different quoting. -/
theorem c9_witness :
    ∃ outLines : List Str,
      ("export K=\"n\"\nexport K=\"n\"".toList) =
        List.intercalate ['\n'] outLines ∧
      outLines.length =
        (pyLines ("export K=\"a\"\nexport K='b'\n".toList)).length ∧
      (∀ (i : Nat) (line : Str),
        (pyLines ("export K=\"a\"\nexport K='b'\n".toList))[i]? = some line →
        lineKey line = some ("K".toList) →
        outLines[i]? = some (canonLine ("K".toList) ("n".toList))) ∧
      ∀ lastLine : Str,
        (pyLines ("export K=\"a\"\nexport K='b'\n".toList)).reverse.find?
            (fun l => decide (lineKey l = some ("K".toList))) = some lastLine →
        dlookup ("K".toList)
            [(("K".toList), ("b".toList))] = lineOldValue lastLine :=
  c9_duplicate_keys_all_rewritten ("export K=\"a\"\nexport K='b'\n".toList)
    [("K".toList, "n".toList)] ("K".toList) ("n".toList)
    ("export K=\"n\"\nexport K=\"n\"".toList)
    [(("K".toList), ("b".toList))] rfl rfl

/-- C2 witness: the amended theorem applied at
`T = "# c\nexport A=\"1\"\n"`, `U = {A: 2}`. -/
theorem c2_witness :
    ∃ outLines : List Str,
      ("# c\nexport A=\"2\"".toList) = List.intercalate ['\n'] outLines ∧
      outLines.length = (pyLines ("# c\nexport A=\"1\"\n".toList)).length ∧
      ∀ (i : Nat) (line : Str),
        (pyLines ("# c\nexport A=\"1\"\n".toList))[i]? = some line →
        untouched [("A".toList, "2".toList)] line →
        outLines[i]? = some line :=
  c2_untouched_lines_preserved ("# c\nexport A=\"1\"\n".toList)
    [("A".toList, "2".toList)] ("# c\nexport A=\"2\"".toList)
    [("A".toList, "1".toList)] (by decide) rfl

/-! ## Claim theorems for the formatters (C4, C5, C10, and the C3
counterexample) -/

/-- C10: `DotenvExportFormatter.parse` is not anchored to line starts: in
the input `# export FOO="bar"` the export statement sits inside a comment
line, yet parse returns the pair as if it were a live definition. -/
theorem c10_comment_line_is_parsed :
    DotenvExportFormatter.parse ("# export FOO=\"bar\"".toList) =
      [("FOO".toList, "bar".toList)] := rfl

/-- C5: the two dotenv parsers never raise: for every input string they
return a (possibly empty) mapping; malformed and unmatched text simply
produces no entries. -/
theorem c5_dotenv_parsers_never_fail (s : Str) :
    (∃ m, read_secret s "dotenv_export" = .ok (.kv m)) ∧
    (∃ m, read_secret s "dotenv_plain" = .ok (.kv m)) :=
  ⟨⟨_, rfl⟩, ⟨_, rfl⟩⟩

/-- C4 (code bug): `[1, 2]` is valid JSON but not an object, yet
`JsonFormatter.parse` returns it without error — contradicting both the
spec and the function's own `-> Dict[str, str]` annotation and docstring
("Parse JSON string into a dictionary"). -/
theorem c4_json_parse_accepts_non_object :
    JsonFormatter.parse ("[1, 2]".toList) =
      .ok (.arr [.num ("1".toList), .num ("2".toList)]) ∧
    ∀ members, Json.arr [.num ("1".toList), .num ("2".toList)] ≠
      .obj members := by
  refine ⟨rfl, ?_⟩
  intro members h
  cases h

/-- C3, counterexample to the claim as stated: for the mapping
`{K: a"b}` (a non-empty value containing a double quote), the export
round-trip loses everything after the quote: parsing the formatted text
yields `{K: a}`. -/
theorem c3_counterexample :
    DotenvExportFormatter.parse
        (DotenvExportFormatter.format [("K".toList, 'a' :: '"' :: 'b' :: [])]) =
      [("K".toList, "a".toList)] ∧
    ('a' :: '"' :: 'b' :: [] : Str) ≠ "a".toList := by
  refine ⟨rfl, by decide⟩

/-! ### Support lemmas for the restricted round trip (C3) -/

lemma pyStrLt_irrefl : ∀ s : Str, pyStrLt s s = false := by
  intro s
  induction s with
  | nil => rfl
  | cons a t ih => simp [pyStrLt, ih]

lemma pyStrLt_cons (a b : Char) (as bs : Str) :
    pyStrLt (a :: as) (b :: bs) =
      if a.toNat < b.toNat then true
      else if b.toNat < a.toNat then false
      else pyStrLt as bs := rfl

lemma pyStrLt_trans : ∀ (a b c : Str), pyStrLt a b = true →
    pyStrLt b c = true → pyStrLt a c = true := by
  intro a
  induction a with
  | nil =>
    intro b c hab hbc
    cases b with
    | nil => simp [pyStrLt] at hab
    | cons bh bt =>
      cases c with
      | nil => simp [pyStrLt] at hbc
      | cons ch ct => rfl
  | cons ah t ih =>
    intro b c hab hbc
    cases b with
    | nil => simp [pyStrLt] at hab
    | cons bh bt =>
      cases c with
      | nil => simp [pyStrLt] at hbc
      | cons ch ct =>
        rw [pyStrLt_cons] at hab hbc ⊢
        by_cases h1 : ah.toNat < bh.toNat
        · rw [if_pos h1] at hab
          by_cases h2 : bh.toNat < ch.toNat
          · rw [if_pos (show ah.toNat < ch.toNat by omega)]
          · rw [if_neg h2] at hbc
            by_cases h3 : ch.toNat < bh.toNat
            · rw [if_pos h3] at hbc; exact absurd hbc (by simp)
            · rw [if_neg h3] at hbc
              rw [if_pos (show ah.toNat < ch.toNat by omega)]
        · rw [if_neg h1] at hab
          by_cases h1b : bh.toNat < ah.toNat
          · rw [if_pos h1b] at hab; exact absurd hab (by simp)
          · rw [if_neg h1b] at hab
            by_cases h2 : bh.toNat < ch.toNat
            · rw [if_pos (show ah.toNat < ch.toNat by omega)]
            · rw [if_neg h2] at hbc
              by_cases h3 : ch.toNat < bh.toNat
              · rw [if_pos h3] at hbc; exact absurd hbc (by simp)
              · rw [if_neg h3] at hbc
                rw [if_neg (show ¬ah.toNat < ch.toNat by omega),
                    if_neg (show ¬ch.toNat < ah.toNat by omega)]
                exact ih bt ct hab hbc

lemma sorted_keys_pairwise :
    ∀ m : List (Str × Str),
      List.Chain' (fun a b => pyStrLt a.1 b.1 = true) m →
      m.Pairwise (fun a b => pyStrLt a.1 b.1 = true) := by
  intro m
  induction m with
  | nil => intro _; exact List.Pairwise.nil
  | cons x xs ih =>
    intro h
    cases xs with
    | nil => exact List.pairwise_singleton _ _
    | cons y ys =>
      obtain ⟨hxy, htail⟩ := List.chain'_cons.mp h
      have hp := ih htail
      refine List.Pairwise.cons ?_ hp
      intro z hz
      rcases List.mem_cons.mp hz with hz | hz
      · exact hz ▸ hxy
      · have hyz := (List.pairwise_cons.mp hp).1 z hz
        exact pyStrLt_trans _ _ _ hxy hyz

lemma sorted_keys_distinct {m : List (Str × Str)}
    (h : List.Chain' (fun a b => pyStrLt a.1 b.1 = true) m) :
    m.Pairwise (fun a b => a.1 ≠ b.1) := by
  refine (sorted_keys_pairwise m h).imp ?_
  intro a b hab heq
  rw [heq, pyStrLt_irrefl] at hab
  cases hab

lemma pysorted_eq_self : ∀ m : List (Str × Str),
    List.Chain' (fun a b => pairLt a b = true) m → pysorted m = m := by
  intro m
  induction m with
  | nil => intro _; rfl
  | cons x xs ih =>
    intro h
    have htail : List.Chain' (fun a b => pairLt a b = true) xs := by
      simpa using h.tail
    unfold pysorted
    rw [ih htail]
    cases xs with
    | nil => rfl
    | cons y ys =>
      have hxy := (List.chain'_cons.mp h).1
      simp [insortInsert, hxy]

lemma chain_key_to_pair {m : List (Str × Str)}
    (h : List.Chain' (fun a b => pyStrLt a.1 b.1 = true) m) :
    List.Chain' (fun a b => pairLt a b = true) m := by
  refine h.imp ?_
  intro a b hab
  unfold pairLt
  rw [hab]
  rfl

lemma dinsert_append_of_ne {d : List (Str × Str)} {k v}
    (h : ∀ e ∈ d, e.1 ≠ k) : dinsert d k v = d ++ [(k, v)] := by
  induction d with
  | nil => rfl
  | cons e t ih =>
    have he : e.1 ≠ k := h e (List.mem_cons_self e t)
    unfold dinsert
    rw [if_neg he]
    rw [ih (fun e2 h2 => h e2 (List.mem_cons_of_mem e h2))]
    rfl

lemma foldl_dinsert_eq_append :
    ∀ (l : List (Str × Str)) (d : List (Str × Str)),
      l.Pairwise (fun a b => a.1 ≠ b.1) →
      (∀ kv ∈ l, ∀ e ∈ d, e.1 ≠ kv.1) →
      l.foldl (fun d kv => dinsert d kv.1 kv.2) d = d ++ l := by
  intro l
  induction l with
  | nil => intro d _ _; simp
  | cons kv t ih =>
    intro d hpw hdisj
    rw [List.foldl_cons]
    have hd2 : dinsert d kv.1 kv.2 = d ++ [kv] := by
      rw [dinsert_append_of_ne (h := hdisj kv (List.mem_cons_self kv t))]
    rw [hd2]
    rw [ih (d ++ [kv]) (List.Pairwise.sublist (List.sublist_cons_self kv t) hpw) ?_]
    · simp
    · intro kv2 h2 e he
      rcases List.mem_append.mp he with he | he
      · exact hdisj kv2 (List.mem_cons_of_mem kv h2) e he
      · rw [List.mem_singleton.mp he]
        exact (List.pairwise_cons.mp hpw).1 kv2 h2

lemma dofList_eq_self {l : List (Str × Str)}
    (h : l.Pairwise (fun a b => a.1 ≠ b.1)) : dofList l = l := by
  have := foldl_dinsert_eq_append l [] h (by simp)
  simpa [dofList] using this

lemma takeWhile_append_all {p : Char → Bool} :
    ∀ (k r : Str), (∀ c ∈ k, p c = true) →
      (k ++ r).takeWhile p = k ++ r.takeWhile p := by
  intro k
  induction k with
  | nil => intro r _; rfl
  | cons c cs ih =>
    intro r h
    rw [List.cons_append, List.takeWhile_cons,
      h c (List.mem_cons_self c cs)]
    rw [ih r (fun c2 h2 => h c2 (List.mem_cons_of_mem c h2))]
    rfl

lemma dropWhile_append_all {p : Char → Bool} :
    ∀ (k r : Str), (∀ c ∈ k, p c = true) →
      (k ++ r).dropWhile p = r.dropWhile p := by
  intro k
  induction k with
  | nil => intro r _; rfl
  | cons c cs ih =>
    intro r h
    rw [List.cons_append, List.dropWhile_cons,
      h c (List.mem_cons_self c cs)]
    simp only [if_true]
    exact ih r (fun c2 h2 => h c2 (List.mem_cons_of_mem c h2))

lemma intercalate_single (sep x : Str) : List.intercalate sep [x] = x := by
  simp [List.intercalate]

lemma intercalate_cons2 (sep x y : Str) (t : List Str) :
    List.intercalate sep (x :: y :: t) =
      x ++ (sep ++ List.intercalate sep (y :: t)) := by
  simp [List.intercalate, List.intersperse]

lemma intercalate_length_ge (sep : Str) :
    ∀ l : List Str, (∀ x ∈ l, 1 ≤ x.length) →
      l.length ≤ (List.intercalate sep l).length := by
  intro l
  induction l with
  | nil => intro _; simp
  | cons x xs ih =>
    intro h
    cases xs with
    | nil =>
      rw [intercalate_single]
      simpa using h x (List.mem_cons_self x [])
    | cons y ys =>
      rw [intercalate_cons2]
      have h1 : 1 ≤ x.length := h x (List.mem_cons_self x _)
      have h2 := ih (fun z hz => h z (List.mem_cons_of_mem x hz))
      simp only [List.length_append, List.length_cons]
      simp only [List.length_cons] at h2
      omega

/-! ### Character-class facts -/

lemma wordChar_bounds {c : Char} (h : wordChar c = true) :
    (48 ≤ c.toNat ∧ c.toNat ≤ 57) ∨ (65 ≤ c.toNat ∧ c.toNat ≤ 90) ∨
    (97 ≤ c.toNat ∧ c.toNat ≤ 122) ∨ c.toNat = 95 := by
  unfold wordChar at h
  rcases Bool.or_eq_true_iff.mp h with h2 | hu
  · rcases Bool.or_eq_true_iff.mp h2 with ha | hd
    · unfold Char.isAlpha at ha
      rcases Bool.or_eq_true_iff.mp ha with h1 | h1
      · unfold Char.isUpper at h1
        rw [Bool.and_eq_true] at h1
        obtain ⟨g1, g2⟩ := h1
        rw [decide_eq_true_eq] at g1 g2
        refine Or.inr (Or.inl ⟨?_, ?_⟩)
        · exact_mod_cast g1
        · exact_mod_cast g2
      · unfold Char.isLower at h1
        rw [Bool.and_eq_true] at h1
        obtain ⟨g1, g2⟩ := h1
        rw [decide_eq_true_eq] at g1 g2
        refine Or.inr (Or.inr (Or.inl ⟨?_, ?_⟩))
        · exact_mod_cast g1
        · exact_mod_cast g2
    · unfold Char.isDigit at hd
      rw [Bool.and_eq_true] at hd
      obtain ⟨g1, g2⟩ := hd
      rw [decide_eq_true_eq] at g1 g2
      refine Or.inl ⟨?_, ?_⟩
      · exact_mod_cast g1
      · exact_mod_cast g2
  · rw [decide_eq_true_eq] at hu
    subst hu
    exact Or.inr (Or.inr (Or.inr rfl))

lemma char_ne_of_toNat {c : Char} (n : Nat) (d : Char) (hd : d.toNat = n)
    (hcn : c.toNat ≠ n) : c ≠ d :=
  fun he => hcn (by rw [he, hd])

lemma wordChar_facts {c : Char} (h : wordChar c = true) :
    pySpace c = false ∧ c ≠ '=' ∧ 32 ≤ c.toNat ∧ c.toNat ≤ 126 ∧
    c ≠ '"' ∧ c ≠ '\'' ∧ c ≠ '\\' ∧ c ≠ '\n' := by
  rcases wordChar_bounds h with ⟨u, v⟩ | ⟨u, v⟩ | ⟨u, v⟩ | u <;>
    refine ⟨?_, ?_, by omega, by omega, ?_, ?_, ?_, ?_⟩ <;>
    first
      | (unfold pySpace
         rw [decide_eq_false (char_ne_of_toNat 32 ' ' rfl (by omega)),
             decide_eq_false (char_ne_of_toNat 9 '\t' rfl (by omega)),
             decide_eq_false (char_ne_of_toNat 10 '\n' rfl (by omega)),
             decide_eq_false (char_ne_of_toNat 13 '\r' rfl (by omega)),
             decide_eq_false (char_ne_of_toNat 11 '\x0b' rfl (by omega)),
             decide_eq_false (char_ne_of_toNat 12 '\x0c' rfl (by omega))]
         rfl)
      | exact char_ne_of_toNat 61 '=' rfl (by omega)
      | exact char_ne_of_toNat 34 '"' rfl (by omega)
      | exact char_ne_of_toNat 39 '\'' rfl (by omega)
      | exact char_ne_of_toNat 92 '\\' rfl (by omega)
      | exact char_ne_of_toNat 10 '\n' rfl (by omega)

lemma validVal_facts {c : Char} (h32 : 32 ≤ c.toNat) (hq : c ≠ '"')
    (ha : c ≠ '\'') : isQuote c = false ∧ c ≠ '\n' := by
  constructor
  · unfold isQuote
    rw [decide_eq_false hq, decide_eq_false ha]
    rfl
  · intro he
    rw [he] at h32
    exact absurd h32 (by decide)

lemma wordChar_eq_char : wordChar '=' = false := by decide

/-! ### Export-format round trip -/

lemma grabToQuote_safe : ∀ (v rest : Str),
    (∀ c ∈ v, isQuote c = false ∧ c ≠ '\n') →
    grabToQuote (v ++ '"' :: rest) = some (v, rest) := by
  intro v
  induction v with
  | nil => intro rest _; rfl
  | cons c cs ih =>
    intro rest h
    obtain ⟨hq, hn⟩ := h c (List.mem_cons_self c cs)
    rw [List.cons_append]
    unfold grabToQuote
    rw [hq]
    simp only [Bool.false_eq_true, if_false]
    rw [if_neg hn]
    rw [ih rest (fun c2 h2 => h c2 (List.mem_cons_of_mem c h2))]
    rfl

lemma takeWhile_cons_of_neg {p : Char → Bool} {a : Char} {l : Str}
    (h : p a = false) : (a :: l).takeWhile p = [] := by
  rw [List.takeWhile_cons, h]
  rfl

lemma matchExportAt_canon (k v rest : Str) (hk : validKey k)
    (hv : validVal v) :
    matchExportAt (canonLine k v ++ rest) = some ((k, v), rest) := by
  obtain ⟨hk0, hkw⟩ := hk
  obtain ⟨hv0, hvc⟩ := hv
  cases k with
  | nil => exact absurd rfl hk0
  | cons kc kt =>
    cases v with
    | nil => exact absurd rfl hv0
    | cons vc vt =>
      have hkc := wordChar_facts (hkw kc (List.mem_cons_self kc kt))
      have hvh := hvc vc (List.mem_cons_self vc vt)
      have hvq := validVal_facts hvh.1 hvh.2.2.1 hvh.2.2.2.1
      have htext : canonLine (kc :: kt) (vc :: vt) ++ rest =
          'e' :: 'x' :: 'p' :: 'o' :: 'r' :: 't' :: ' ' ::
            (kc :: (kt ++ '=' :: '"' :: vc :: (vt ++ '"' :: rest))) := by
        rw [canonLine_eq]; simp
      rw [htext]
      have hA1 : List.takeWhile pySpace
          (' ' :: (kc :: (kt ++ '=' :: '"' :: vc :: (vt ++ '"' :: rest)))) =
          [' '] := by
        rw [List.takeWhile_cons]
        simp only [show pySpace ' ' = true from rfl, if_true]
        rw [takeWhile_cons_of_neg hkc.1]
      have hA2 : List.dropWhile pySpace
          (' ' :: (kc :: (kt ++ '=' :: '"' :: vc :: (vt ++ '"' :: rest)))) =
          kc :: (kt ++ '=' :: '"' :: vc :: (vt ++ '"' :: rest)) := by
        rw [List.dropWhile_cons]
        simp only [show pySpace ' ' = true from rfl, if_true]
        exact dropWhile_cons_of_false hkc.1
      have hA3 : List.takeWhile wordChar
          (kc :: (kt ++ '=' :: '"' :: vc :: (vt ++ '"' :: rest))) =
          kc :: kt := by
        have h1 := takeWhile_append_all (p := wordChar) (kc :: kt)
          ('=' :: '"' :: vc :: (vt ++ '"' :: rest)) hkw
        rw [List.cons_append] at h1
        rw [h1, takeWhile_cons_of_neg wordChar_eq_char]
        simp
      have hA4 : List.dropWhile wordChar
          (kc :: (kt ++ '=' :: '"' :: vc :: (vt ++ '"' :: rest))) =
          '=' :: '"' :: vc :: (vt ++ '"' :: rest) := by
        have h1 := dropWhile_append_all (p := wordChar) (kc :: kt)
          ('=' :: '"' :: vc :: (vt ++ '"' :: rest)) hkw
        rw [List.cons_append] at h1
        rw [h1]
        exact dropWhile_cons_of_false wordChar_eq_char
      have hGrab : grabToQuote (vt ++ '"' :: rest) = some (vt, rest) := by
        apply grabToQuote_safe
        intro c hc
        have h2 := hvc c (List.mem_cons_of_mem vc hc)
        exact validVal_facts h2.1 h2.2.2.1 h2.2.2.2.1
      simp only [matchExportAt, hA1, hA2, hA3, hA4, hGrab]
      simp [hvq.2, isQuote]

lemma canonLine_length_pos (k v : Str) : 0 < (canonLine k v).length := by
  rw [canonLine_eq]; simp

lemma exportScan_succ (fuel : Nat) (s : Str) :
    exportScan (fuel + 1) s =
      match matchExportAt s with
      | some (kv, rest) => kv :: exportScan fuel rest
      | none =>
        match s with
        | [] => []
        | _ :: cs => exportScan fuel cs := rfl

lemma matchExportAt_newline (t : Str) : matchExportAt ('\n' :: t) = none := rfl

lemma exportScan_text : ∀ (m : List (Str × Str)),
    (∀ kv ∈ m, validKey kv.1 ∧ validVal kv.2) →
    ∀ fuel,
      (List.intercalate ['\n']
        (m.map (fun kv => canonLine kv.1 kv.2))).length + 1 ≤ fuel →
      exportScan fuel
        (List.intercalate ['\n'] (m.map (fun kv => canonLine kv.1 kv.2))) =
        m := by
  intro m
  induction m with
  | nil =>
    intro _ fuel hf
    cases fuel with
    | zero => omega
    | succ f => rfl
  | cons kv t ih =>
    intro hval fuel hf
    obtain ⟨hk, hv⟩ := hval kv (List.mem_cons_self kv t)
    cases t with
    | nil =>
      simp only [List.map_cons, List.map_nil, intercalate_single] at hf ⊢
      cases fuel with
      | zero => omega
      | succ f =>
        have hm := matchExportAt_canon kv.1 kv.2 [] hk hv
        rw [List.append_nil] at hm
        rw [exportScan_succ, hm]
        cases f with
        | zero => rfl
        | succ f2 => rfl
    | cons kv2 t2 =>
      simp only [List.map_cons, intercalate_cons2] at hf ⊢
      rw [List.singleton_append] at hf ⊢
      cases fuel with
      | zero => omega
      | succ f =>
        rw [exportScan_succ, matchExportAt_canon kv.1 kv.2 _ hk hv]
        dsimp only
        cases f with
        | zero =>
          rw [List.length_append, List.length_cons] at hf
          have := canonLine_length_pos kv.1 kv.2
          omega
        | succ f2 =>
          have hskip :
              exportScan (f2 + 1)
                ('\n' :: List.intercalate ['\n']
                  (canonLine kv2.1 kv2.2 ::
                    List.map (fun kv => canonLine kv.1 kv.2) t2)) =
              exportScan f2
                (List.intercalate ['\n']
                  (canonLine kv2.1 kv2.2 ::
                    List.map (fun kv => canonLine kv.1 kv.2) t2)) := by
            rw [exportScan_succ, matchExportAt_newline]
          rw [hskip]
          have hrec := ih (fun kv h => hval kv (List.mem_cons_of_mem _ h)) f2 ?_
          · simp only [List.map_cons] at hrec
            rw [hrec]
          · rw [List.length_append, List.length_cons] at hf
            have := canonLine_length_pos kv.1 kv.2
            simp only [List.map_cons]
            omega

/-! ### Plain-format round trip -/

lemma takeWhile_all_eq_self {p : Char → Bool} {l : Str}
    (h : ∀ c ∈ l, p c = true) : l.takeWhile p = l := by
  have h1 := takeWhile_append_all (p := p) l [] h
  simpa using h1

lemma dropWhile_all_eq_nil {p : Char → Bool} {l : Str}
    (h : ∀ c ∈ l, p c = true) : l.dropWhile p = [] := by
  have h1 := dropWhile_append_all (p := p) l [] h
  simpa using h1

lemma notNl_of_ne {c : Char} (h : c ≠ '\n') : (!(c = '\n') : Bool) = true := by
  rw [decide_eq_false h]
  rfl

lemma plainScan_succ (fuel : Nat) (s : Str) :
    plainScan (fuel + 1) s =
      match matchPlainAt s with
      | some (kv, rest) => kv :: plainScan fuel rest
      | none =>
        match s with
        | [] => []
        | _ :: cs => plainScan fuel cs := rfl

lemma matchPlainAt_newline (t : Str) : matchPlainAt ('\n' :: t) = none := rfl

lemma matchPlainAt_mid (k v t : Str) (hk : validKey k) (hv : validVal v) :
    matchPlainAt (k ++ '=' :: (v ++ '\n' :: t)) = some ((k, v), t) := by
  obtain ⟨hk0, hkw⟩ := hk
  obtain ⟨hv0, hvc⟩ := hv
  cases k with
  | nil => exact absurd rfl hk0
  | cons kc kt =>
    cases v with
    | nil => exact absurd rfl hv0
    | cons vc vt =>
      have hvh := hvc vc (List.mem_cons_self vc vt)
      have hvq := validVal_facts hvh.1 hvh.2.2.1 hvh.2.2.2.1
      have hname : List.takeWhile wordChar
          ((kc :: kt) ++ '=' :: (vc :: vt ++ '\n' :: t)) = kc :: kt := by
        rw [takeWhile_append_all _ _ hkw, takeWhile_cons_of_neg wordChar_eq_char]
        simp
      have hdrop : List.dropWhile wordChar
          ((kc :: kt) ++ '=' :: (vc :: vt ++ '\n' :: t)) =
          '=' :: (vc :: vt ++ '\n' :: t) := by
        rw [dropWhile_append_all _ _ hkw]
        exact dropWhile_cons_of_false wordChar_eq_char
      have hvall : ∀ c ∈ vc :: vt, (!(c = '\n') : Bool) = true := by
        intro c hc
        have h2 := hvc c hc
        exact notNl_of_ne (validVal_facts h2.1 h2.2.2.1 h2.2.2.2.1).2
      have hTake : List.takeWhile (fun c => !(c = '\n'))
          (vc :: vt ++ '\n' :: t) = vc :: vt := by
        rw [takeWhile_append_all _ _ hvall]
        rw [takeWhile_cons_of_neg (by rfl)]
        simp
      have hDrop : List.dropWhile (fun c => !(c = '\n'))
          (vc :: vt ++ '\n' :: t) = '\n' :: t := by
        rw [dropWhile_append_all _ _ hvall]
        exact dropWhile_cons_of_false (by rfl)
      simp only [matchPlainAt, hname, hdrop, hTake, hDrop]
      simp only [List.isEmpty_cons, Bool.false_eq_true, if_false]
      simp [hvq.1, hvq.2]

lemma matchPlainAt_last (k v : Str) (hk : validKey k) (hv : validVal v) :
    matchPlainAt (k ++ '=' :: v) = some ((k, v), []) := by
  obtain ⟨hk0, hkw⟩ := hk
  obtain ⟨hv0, hvc⟩ := hv
  cases k with
  | nil => exact absurd rfl hk0
  | cons kc kt =>
    cases v with
    | nil => exact absurd rfl hv0
    | cons vc vt =>
      have hvh := hvc vc (List.mem_cons_self vc vt)
      have hvq := validVal_facts hvh.1 hvh.2.2.1 hvh.2.2.2.1
      have hname : List.takeWhile wordChar
          ((kc :: kt) ++ '=' :: (vc :: vt)) = kc :: kt := by
        rw [takeWhile_append_all _ _ hkw, takeWhile_cons_of_neg wordChar_eq_char]
        simp
      have hdrop : List.dropWhile wordChar
          ((kc :: kt) ++ '=' :: (vc :: vt)) = '=' :: (vc :: vt) := by
        rw [dropWhile_append_all _ _ hkw]
        exact dropWhile_cons_of_false wordChar_eq_char
      have hvall : ∀ c ∈ vc :: vt, (!(c = '\n') : Bool) = true := by
        intro c hc
        have h2 := hvc c hc
        exact notNl_of_ne (validVal_facts h2.1 h2.2.2.1 h2.2.2.2.1).2
      have hTake : List.takeWhile (fun c => !(c = '\n')) (vc :: vt) =
          vc :: vt := takeWhile_all_eq_self hvall
      have hDrop : List.dropWhile (fun c => !(c = '\n')) (vc :: vt) =
          [] := dropWhile_all_eq_nil hvall
      simp only [matchPlainAt, hname, hdrop, hTake, hDrop]
      simp only [List.isEmpty_cons, Bool.false_eq_true, if_false]
      simp [hvq.1, hvq.2]

lemma plainScan_text : ∀ (m : List (Str × Str)),
    (∀ kv ∈ m, validKey kv.1 ∧ validVal kv.2) →
    ∀ fuel,
      (List.intercalate ['\n']
        (m.map (fun kv => kv.1 ++ '=' :: kv.2))).length + 1 ≤ fuel →
      plainScan fuel
        (List.intercalate ['\n'] (m.map (fun kv => kv.1 ++ '=' :: kv.2))) =
        m := by
  intro m
  induction m with
  | nil =>
    intro _ fuel hf
    cases fuel with
    | zero => omega
    | succ f => rfl
  | cons kv t ih =>
    intro hval fuel hf
    obtain ⟨hk, hv⟩ := hval kv (List.mem_cons_self kv t)
    cases t with
    | nil =>
      simp only [List.map_cons, List.map_nil, intercalate_single] at hf ⊢
      cases fuel with
      | zero => omega
      | succ f =>
        rw [plainScan_succ, matchPlainAt_last kv.1 kv.2 hk hv]
        dsimp only
        cases f with
        | zero => rfl
        | succ f2 => rfl
    | cons kv2 t2 =>
      simp only [List.map_cons, intercalate_cons2] at hf ⊢
      rw [List.singleton_append] at hf ⊢
      have hassoc : (kv.1 ++ '=' :: kv.2) ++
          '\n' :: List.intercalate ['\n']
            ((kv2.1 ++ '=' :: kv2.2) ::
              List.map (fun kv => kv.1 ++ '=' :: kv.2) t2) =
          kv.1 ++ '=' :: (kv.2 ++
            '\n' :: List.intercalate ['\n']
              ((kv2.1 ++ '=' :: kv2.2) ::
                List.map (fun kv => kv.1 ++ '=' :: kv.2) t2)) := by
        simp
      cases fuel with
      | zero => omega
      | succ f =>
        rw [hassoc, plainScan_succ, matchPlainAt_mid kv.1 kv.2 _ hk hv]
        dsimp only
        have hrec := ih (fun kv h => hval kv (List.mem_cons_of_mem _ h)) f ?_
        · simp only [List.map_cons] at hrec
          rw [hrec]
        · rw [hassoc] at hf
          rw [List.length_append, List.length_cons, List.length_append,
            List.length_cons] at hf
          simp only [List.map_cons]
          omega

/-! ### JSON round trip: string and escape level -/

lemma jsonEscapeChar_id {c : Char} (h32 : 32 ≤ c.toNat)
    (h126 : c.toNat ≤ 126) (hq : c ≠ '"') (hb : c ≠ '\\') :
    jsonEscapeChar c = [c] := by
  unfold jsonEscapeChar
  rw [if_neg hq, if_neg hb,
    if_neg (char_ne_of_toNat 10 '\n' rfl (by omega)),
    if_neg (char_ne_of_toNat 9 '\t' rfl (by omega)),
    if_neg (char_ne_of_toNat 13 '\r' rfl (by omega)),
    if_neg (char_ne_of_toNat 8 '\x08' rfl (by omega)),
    if_neg (char_ne_of_toNat 12 '\x0c' rfl (by omega)),
    if_neg (show ¬c.toNat < 32 by omega),
    if_pos (show c.toNat < 127 by omega)]

lemma flatMap_escape_id {s : Str}
    (h : ∀ c ∈ s, jsonEscapeChar c = [c]) :
    s.flatMap jsonEscapeChar = s := by
  induction s with
  | nil => rfl
  | cons c cs ih =>
    rw [List.flatMap_cons, h c (List.mem_cons_self c cs),
      ih (fun c2 h2 => h c2 (List.mem_cons_of_mem c h2))]
    rfl

lemma jsonQuote_safe_eq {s : Str}
    (h : ∀ c ∈ s, jsonEscapeChar c = [c]) :
    jsonQuote s = '"' :: (s ++ ['"']) := by
  unfold jsonQuote
  rw [flatMap_escape_id h]

lemma parseJStr_safe : ∀ (s rest : Str),
    (∀ c ∈ s, 32 ≤ c.toNat ∧ c ≠ '"' ∧ c ≠ '\\') →
    parseJStr (s ++ '"' :: rest) = some (s, rest) := by
  intro s
  induction s with
  | nil =>
    intro rest _
    show parseJStr ('"' :: rest) = some ([], rest)
    unfold parseJStr
    rw [if_pos rfl]
  | cons c cs ih =>
    intro rest h
    obtain ⟨h32, hq, hb⟩ := h c (List.mem_cons_self c cs)
    rw [List.cons_append]
    unfold parseJStr
    rw [if_neg hq, if_neg hb, if_neg (show ¬c.toNat < 32 by omega)]
    rw [ih rest (fun c2 h2 => h c2 (List.mem_cons_of_mem c h2))]
    rfl

/-! ### JSON round trip: parser step equations -/

lemma skipWs_cons_false {c : Char} {t : Str} (h : jsonWs c = false) :
    skipWs (c :: t) = c :: t := by
  unfold skipWs
  exact dropWhile_cons_of_false h

lemma skipWs_cons_true {c : Char} {t : Str} (h : jsonWs c = true) :
    skipWs (c :: t) = skipWs t := by
  unfold skipWs
  rw [List.dropWhile_cons, h]
  simp

lemma parseValue_str_eq (fuel : Nat) (s : Str) :
    parseValue (fuel + 1) ('"' :: s) =
      (parseJStr s).map (fun p => (Json.str p.1, p.2)) := rfl

lemma parseValue_obj_eq (fuel : Nat) (s : Str) :
    parseValue (fuel + 1) ('{' :: s) = parseObjBody fuel (skipWs s) := rfl

lemma parseObjBody_close (fuel : Nat) (r : Str) :
    parseObjBody (fuel + 1) ('}' :: r) = some (.obj [], r) := rfl

lemma parseObjBody_open (fuel : Nat) (s : Str) :
    parseObjBody (fuel + 1) ('"' :: s) = parseMembers fuel ('"' :: s) [] := rfl

lemma parseMembers_quote (fuel : Nat) (cs : Str) (acc : List (Str × Json)) :
    parseMembers (fuel + 1) ('"' :: cs) acc =
      match parseJStr cs with
      | some (key, r1) =>
        match expectColon (skipWs r1) with
        | some r2 =>
          match parseValue fuel (skipWs r2) with
          | some (v, r3) =>
            match objNext (skipWs r3) with
            | some (true, r4) => parseMembers fuel (skipWs r4) (jinsert acc key v)
            | some (false, r4) => some (.obj (jinsert acc key v), r4)
            | none => none
          | none => none
        | none => none
      | none => none := rfl

lemma expectColon_eq (r : Str) : expectColon (':' :: r) = some r := rfl

lemma objNext_comma (r : Str) : objNext (',' :: r) = some (true, r) := rfl

lemma objNext_close (r : Str) : objNext ('}' :: r) = some (false, r) := rfl

lemma jinsert_append_of_ne {d : List (Str × Json)} {k : Str} {v : Json}
    (h : ∀ e ∈ d, e.1 ≠ k) : jinsert d k v = d ++ [(k, v)] := by
  induction d with
  | nil => rfl
  | cons e t ih =>
    have he : e.1 ≠ k := h e (List.mem_cons_self e t)
    unfold jinsert
    rw [if_neg he]
    rw [ih (fun e2 h2 => h e2 (List.mem_cons_of_mem e h2))]
    rfl

/-! ### JSON round trip: members and assembly -/

lemma validKey_escape {k : Str} (hk : validKey k) :
    ∀ c ∈ k, jsonEscapeChar c = [c] := by
  intro c hc
  have f := wordChar_facts (hk.2 c hc)
  exact jsonEscapeChar_id f.2.2.1 f.2.2.2.1 f.2.2.2.2.1 f.2.2.2.2.2.2.1

lemma validKey_strSafe {k : Str} (hk : validKey k) :
    ∀ c ∈ k, 32 ≤ c.toNat ∧ c ≠ '"' ∧ c ≠ '\\' := by
  intro c hc
  have f := wordChar_facts (hk.2 c hc)
  exact ⟨f.2.2.1, f.2.2.2.2.1, f.2.2.2.2.2.2.1⟩

lemma validVal_escape {v : Str} (hv : validVal v) :
    ∀ c ∈ v, jsonEscapeChar c = [c] := by
  intro c hc
  have f := hv.2 c hc
  exact jsonEscapeChar_id f.1 f.2.1 f.2.2.1 f.2.2.2.2

lemma validVal_strSafe {v : Str} (hv : validVal v) :
    ∀ c ∈ v, 32 ≤ c.toNat ∧ c ≠ '"' ∧ c ≠ '\\' := by
  intro c hc
  have f := hv.2 c hc
  exact ⟨f.1, f.2.2.1, f.2.2.2.2⟩

lemma membersText_cons_head (kv : Str × Str) (t : List (Str × Str)) :
    membersText (kv :: t) =
      '"' :: ((kv.1.flatMap jsonEscapeChar ++ ['"']) ++
        ':' :: ' ' :: (jsonQuote kv.2 ++
          (match t with
           | [] => '\n' :: '}' :: []
           | _ :: _ => ',' :: '\n' :: ' ' :: ' ' :: membersText t))) := by
  have h0 : membersText (kv :: t) =
      jsonQuote kv.1 ++ ':' :: ' ' :: (jsonQuote kv.2 ++
        (match t with
         | [] => '\n' :: '}' :: []
         | _ :: _ => ',' :: '\n' :: ' ' :: ' ' :: membersText t)) := rfl
  rw [h0, show jsonQuote kv.1 = '"' :: (kv.1.flatMap jsonEscapeChar ++ ['"'])
    from rfl]
  rw [List.cons_append]

lemma membersText_head (kv : Str × Str) (t : List (Str × Str)) :
    ∃ X, membersText (kv :: t) = '"' :: X :=
  ⟨_, membersText_cons_head kv t⟩

lemma parseMembers_text :
    ∀ (ms : List (Str × Str)) (acc : List (Str × Json)) (fuel : Nat),
      ms ≠ [] →
      (∀ kv ∈ ms, validKey kv.1 ∧ validVal kv.2) →
      (∀ kv ∈ ms, ∀ e ∈ acc, e.1 ≠ kv.1) →
      ms.Pairwise (fun a b => a.1 ≠ b.1) →
      2 * ms.length ≤ fuel →
      parseMembers fuel (membersText ms) acc =
        some (.obj (acc ++ ms.map (fun kv => (kv.1, Json.str kv.2))), []) := by
  intro ms
  induction ms with
  | nil => intro acc fuel h; exact absurd rfl h
  | cons kv t ih =>
    intro acc fuel _ hval hdisj hpw hfuel
    obtain ⟨hk, hv⟩ := hval kv (List.mem_cons_self kv t)
    simp only [List.length_cons] at hfuel
    cases t with
    | nil =>
      have htext : membersText [kv] =
          '"' :: (kv.1 ++ '"' :: ':' :: ' ' ::
            ('"' :: (kv.2 ++ '"' :: '\n' :: '}' :: []))) := by
        unfold membersText
        rw [jsonQuote_safe_eq (validKey_escape hk),
          jsonQuote_safe_eq (validVal_escape hv)]
        simp
      cases fuel with
      | zero => omega
      | succ f =>
        cases f with
        | zero => omega
        | succ f2 =>
          rw [htext, parseMembers_quote]
          rw [parseJStr_safe _ _ (validKey_strSafe hk)]
          try dsimp only
          rw [skipWs_cons_false (by rfl), expectColon_eq]
          try dsimp only
          rw [skipWs_cons_true (by rfl), skipWs_cons_false (by rfl)]
          rw [parseValue_str_eq]
          rw [parseJStr_safe _ _ (validVal_strSafe hv)]
          simp only [Option.map_some']
          try dsimp only
          rw [skipWs_cons_true (by rfl), skipWs_cons_false (by rfl)]
          rw [objNext_close]
          try dsimp only
          rw [jinsert_append_of_ne
            (fun e he => hdisj kv (List.mem_cons_self kv []) e he)]
          simp
    | cons kv2 t2 =>
      have htext : membersText (kv :: kv2 :: t2) =
          '"' :: (kv.1 ++ '"' :: ':' :: ' ' ::
            ('"' :: (kv.2 ++ '"' :: ',' :: '\n' :: ' ' :: ' ' ::
              membersText (kv2 :: t2)))) := by
        have h0 : membersText (kv :: kv2 :: t2) =
            jsonQuote kv.1 ++ ':' :: ' ' :: (jsonQuote kv.2 ++
              ',' :: '\n' :: ' ' :: ' ' :: membersText (kv2 :: t2)) := rfl
        rw [h0, jsonQuote_safe_eq (validKey_escape hk),
          jsonQuote_safe_eq (validVal_escape hv)]
        simp
      cases fuel with
      | zero => omega
      | succ f =>
        cases f with
        | zero => omega
        | succ f2 =>
          rw [htext, parseMembers_quote]
          rw [parseJStr_safe _ _ (validKey_strSafe hk)]
          try dsimp only
          rw [skipWs_cons_false (by rfl), expectColon_eq]
          try dsimp only
          rw [skipWs_cons_true (by rfl), skipWs_cons_false (by rfl)]
          rw [parseValue_str_eq]
          rw [parseJStr_safe _ _ (validVal_strSafe hv)]
          simp only [Option.map_some']
          try dsimp only
          rw [skipWs_cons_false (by rfl)]
          rw [objNext_comma]
          try dsimp only
          obtain ⟨X, hX⟩ := membersText_head kv2 t2
          rw [skipWs_cons_true (by rfl), skipWs_cons_true (by rfl),
            skipWs_cons_true (by rfl), hX, skipWs_cons_false (by rfl), ← hX]
          rw [jinsert_append_of_ne
            (fun e he => hdisj kv (List.mem_cons_self kv _) e he)]
          have hrec := ih (acc ++ [(kv.1, Json.str kv.2)]) (f2 + 1)
            (by simp) (fun kv2 h2 => hval kv2 (List.mem_cons_of_mem kv h2))
            ?_ (List.Pairwise.sublist (List.sublist_cons_self kv _) hpw) ?_
          · rw [hrec]
            simp
          · intro kv3 h3 e he
            rcases List.mem_append.mp he with he | he
            · exact hdisj kv3 (List.mem_cons_of_mem kv h3) e he
            · rw [List.mem_singleton.mp he]
              exact (List.pairwise_cons.mp hpw).1 kv3 h3
          · simp only [List.length_cons] at hfuel ⊢
            omega

lemma json_body_eq : ∀ (m : List (Str × Str)), m ≠ [] →
    (List.intercalate (',' :: '\n' :: [])
      (m.map (fun kv =>
        ' ' :: ' ' :: (jsonQuote kv.1 ++ ':' :: ' ' :: jsonQuote kv.2))))
      ++ '\n' :: '}' :: [] =
    ' ' :: ' ' :: membersText m := by
  intro m
  induction m with
  | nil => intro h; exact absurd rfl h
  | cons kv t ih =>
    intro _
    cases t with
    | nil =>
      rw [List.map_cons, List.map_nil, intercalate_single]
      unfold membersText
      simp
    | cons kv2 t2 =>
      rw [List.map_cons, List.map_cons, intercalate_cons2]
      have hrest := ih (by simp)
      rw [List.map_cons] at hrest
      conv_rhs => rw [show membersText (kv :: kv2 :: t2) =
        jsonQuote kv.1 ++ ':' :: ' ' :: (jsonQuote kv.2 ++
          ',' :: '\n' :: ' ' :: ' ' :: membersText (kv2 :: t2)) from rfl]
      rw [← hrest]
      simp

lemma jsonQuote_length_ge (s : Str) : 2 ≤ (jsonQuote s).length := by
  unfold jsonQuote
  simp

lemma membersText_length : ∀ ms : List (Str × Str),
    ms.length ≤ (membersText ms).length := by
  intro ms
  induction ms with
  | nil => simp [membersText]
  | cons kv t ih =>
    cases t with
    | nil =>
      unfold membersText
      simp only [List.length_cons, List.length_append]
      simp
      omega
    | cons kv2 t2 =>
      have h1 := jsonQuote_length_ge kv.1
      conv_rhs => rw [show membersText (kv :: kv2 :: t2) =
        jsonQuote kv.1 ++ ':' :: ' ' :: (jsonQuote kv.2 ++
          ',' :: '\n' :: ' ' :: ' ' :: membersText (kv2 :: t2)) from rfl]
      simp only [List.length_append, List.length_cons]
      simp only [List.length_cons] at ih ⊢
      omega

lemma json_roundtrip (m : List (Str × Str))
    (hval : ∀ kv ∈ m, validKey kv.1 ∧ validVal kv.2)
    (hpw : m.Pairwise (fun a b => a.1 ≠ b.1)) :
    JsonFormatter.parse (JsonFormatter.format m) =
      .ok (.obj (m.map (fun kv => (kv.1, Json.str kv.2)))) := by
  cases m with
  | nil => rfl
  | cons kv t =>
    have hbody := json_body_eq (kv :: t) (by simp)
    have hfmt : JsonFormatter.format (kv :: t) =
        '{' :: '\n' :: (' ' :: ' ' :: membersText (kv :: t)) := by
      have h0 : JsonFormatter.format (kv :: t) =
          '{' :: '\n' ::
            ((List.intercalate (',' :: '\n' :: [])
              ((kv :: t).map (fun kv =>
                ' ' :: ' ' :: (jsonQuote kv.1 ++ ':' :: ' ' :: jsonQuote kv.2))))
              ++ '\n' :: '}' :: []) := rfl
      rw [h0, hbody]
    have hlen : (kv :: t).length ≤ (membersText (kv :: t)).length :=
      membersText_length _
    obtain ⟨X, hX⟩ := membersText_head kv t
    have hsw : skipWs (membersText (kv :: t)) = membersText (kv :: t) := by
      rw [hX]
      exact skipWs_cons_false (by rfl)
    have hopen : parseObjBody
        ((3 * ('{' :: '\n' ::
          (' ' :: ' ' :: membersText (kv :: t))).length + 1) + 1)
        (membersText (kv :: t)) =
      parseMembers
        (3 * ('{' :: '\n' ::
          (' ' :: ' ' :: membersText (kv :: t))).length + 1)
        (membersText (kv :: t)) [] := by
      rw [hX]
      exact parseObjBody_open _ X
    unfold JsonFormatter.parse jsonLoads
    rw [hfmt]
    rw [skipWs_cons_false (by rfl)]
    rw [show 3 * ('{' :: '\n' ::
        (' ' :: ' ' :: membersText (kv :: t))).length + 3 =
      (3 * ('{' :: '\n' ::
        (' ' :: ' ' :: membersText (kv :: t))).length + 2) + 1 by omega]
    rw [parseValue_obj_eq]
    rw [skipWs_cons_true (by rfl), skipWs_cons_true (by rfl),
      skipWs_cons_true (by rfl)]
    rw [hsw]
    rw [show 3 * ('{' :: '\n' ::
        (' ' :: ' ' :: membersText (kv :: t))).length + 2 =
      (3 * ('{' :: '\n' ::
        (' ' :: ' ' :: membersText (kv :: t))).length + 1) + 1 by omega]
    rw [hopen]
    rw [parseMembers_text (kv :: t) []
      (3 * ('{' :: '\n' :: (' ' :: ' ' :: membersText (kv :: t))).length + 1)
      (by simp) hval (by simp) hpw ?_]
    · simp [show skipWs ([] : Str) = [] from rfl]
    · simp only [List.length_cons] at hlen ⊢
      omega

/-- C3 (amended): the round-trip law `parse (format m) = m` holds for all
three formats once the mapping is restricted to what the source's regex
patterns and JSON escaping can faithfully carry: keys over `[A-Za-z0-9_]`,
non-empty printable-ASCII values without quote or backslash characters
(forced by the counterexample `{K: a"b}`), the mapping in canonical
(key-sorted, duplicate-free) dict form.  For JSON the decoded value is the
corresponding JSON object of strings. -/
theorem c3_roundtrip_restricted (m : List (Str × Str))
    (hsort : List.Chain' (fun a b => pyStrLt a.1 b.1 = true) m)
    (hval : ∀ kv ∈ m, validKey kv.1 ∧ validVal kv.2) :
    DotenvExportFormatter.parse (DotenvExportFormatter.format m) = m ∧
    DotenvPlainFormatter.parse (DotenvPlainFormatter.format m) = m ∧
    JsonFormatter.parse (JsonFormatter.format m) =
      .ok (.obj (m.map (fun kv => (kv.1, Json.str kv.2)))) := by
  have hpw := sorted_keys_distinct hsort
  have hps : pysorted m = m := pysorted_eq_self m (chain_key_to_pair hsort)
  refine ⟨?_, ?_, json_roundtrip m hval hpw⟩
  · unfold DotenvExportFormatter.parse DotenvExportFormatter.format
    rw [hps]
    rw [exportScan_text m hval _ (le_refl _)]
    exact dofList_eq_self hpw
  · unfold DotenvPlainFormatter.parse DotenvPlainFormatter.format
    rw [hps]
    rw [plainScan_text m hval _ (le_refl _)]
    exact dofList_eq_self hpw

/-- C3 witness: the amended round trip at the concrete mapping
`{A: x 1, B: y}`. -/
theorem c3_witness :
    DotenvExportFormatter.parse (DotenvExportFormatter.format
        [("A".toList, "x 1".toList), ("B".toList, "y".toList)]) =
      [("A".toList, "x 1".toList), ("B".toList, "y".toList)] ∧
    DotenvPlainFormatter.parse (DotenvPlainFormatter.format
        [("A".toList, "x 1".toList), ("B".toList, "y".toList)]) =
      [("A".toList, "x 1".toList), ("B".toList, "y".toList)] ∧
    JsonFormatter.parse (JsonFormatter.format
        [("A".toList, "x 1".toList), ("B".toList, "y".toList)]) =
      .ok (.obj [("A".toList, Json.str ("x 1".toList)),
                 ("B".toList, Json.str ("y".toList))]) :=
  c3_roundtrip_restricted
    [("A".toList, "x 1".toList), ("B".toList, "y".toList)]
    (List.chain'_cons.mpr ⟨by decide, List.chain'_singleton _⟩)
    (by
      intro kv hkv
      unfold validKey validVal
      rcases List.mem_cons.mp hkv with h | h
      · subst h
        exact ⟨⟨by decide, by decide⟩, by decide, by decide⟩
      · rcases List.mem_cons.mp h with h2 | h2
        · subst h2
          exact ⟨⟨by decide, by decide⟩, by decide, by decide⟩
        · cases h2)

/-! ### C8: batch rotation -/

lemma rsfa_acc {α β : Type} (rotate_secret : Str → Option α × Option β) :
    ∀ (paths : List Str) (results : List (RotOutcome α β)),
      rotate_secrets_for_app rotate_secret paths results =
        results ++ paths.map (fun path => mkOutcome path (rotate_secret path)) := by
  intro paths
  induction paths with
  | nil => intro results; simp [rotate_secrets_for_app]
  | cons p rest ih =>
    intro results
    simp [rotate_secrets_for_app, ih, mkOutcome]

/-- C8: `rotate_secrets_for_app` returns exactly one outcome row per
path, in path order, and each row is built from that path's own rotation
result alone, so a failed rotation on one path (a `(None, None)` return)
neither aborts nor alters the rows of the remaining paths. -/
theorem c8_batch_outcomes {α β : Type} (rotate_secret : Str → Option α × Option β)
    (paths : List Str) :
    rotate_secrets_for_app rotate_secret paths [] =
      paths.map (fun path => mkOutcome path (rotate_secret path)) ∧
    (rotate_secrets_for_app rotate_secret paths []).length = paths.length := by
  refine ⟨by simpa using rsfa_acc rotate_secret paths [], ?_⟩
  rw [rsfa_acc rotate_secret paths []]
  simp

/-! ### C7: content sniffing -/

lemma sniffSpec_cons_str (k : String) (s : Str) (rest : List (String × FieldVal)) :
    sniffSpec ((k, FieldVal.str s) :: rest) =
      match sniffShape s with
      | some format_type => some (format_type, k)
      | none => sniffSpec rest := by
  cases h : sniffShape s <;>
    simp [sniffSpec, List.findSome?_cons, h]

lemma sniffLoop_eq_spec :
    ∀ current_data, sniffLoop current_data = sniffSpec current_data := by
  intro d
  induction d with
  | nil => rfl
  | cons kv rest ih =>
    obtain ⟨k, v⟩ := kv
    cases v with
    | nonstr => exact ih
    | str s =>
      rw [sniffSpec_cons_str]
      simp only [sniffLoop, sniffShape]
      by_cases h1 : startsWithL ['{'] s && endsWithL ['}'] s
      · rw [if_pos h1, if_pos h1]
      · rw [if_neg h1, if_neg h1]
        by_cases h2 : subL ['='] s && !subL ("export".toList) s
        · rw [if_pos h2, if_pos h2]
        · rw [if_neg h2, if_neg h2]
          by_cases h3 : subL ("export".toList) s
          · rw [if_pos h3, if_pos h3]
          · rw [if_neg h3, if_neg h3]
            exact ih

/-- C7: when `rotate_secret_kv` runs without configuration, the format is
sniffed from the current field values in iteration order — the first
field whose string value matches a shape determines the format (object
braces select json, `=` without `export` selects dotenv_plain,
containing `export` selects dotenv_export) — and when no field matches,
the result is format `dotenv_export` with field name `dotenv`. -/
theorem c7_content_sniffing (current_data : List (String × FieldVal)) :
    (∀ format_type k, sniffSpec current_data = some (format_type, k) →
        (sniffFormat current_data).1 = format_type) ∧
    (sniffSpec current_data = none →
        sniffFormat current_data = ("dotenv_export", "dotenv")) := by
  constructor
  · intro format_type k h
    unfold sniffFormat
    rw [sniffLoop_eq_spec, h]
    by_cases hk : k = "" <;> simp [hk]
  · intro h
    unfold sniffFormat
    rw [sniffLoop_eq_spec, h]

/-- C7 witness: sniffing at the concrete data `{cfg: A=1}` (a plain
dotenv value) and `{n: non-string}` (no match). -/
theorem c7_witness :
    (sniffFormat [("cfg", FieldVal.str ("A=1".toList))]).1 = "dotenv_plain" ∧
    sniffFormat [("n", FieldVal.nonstr)] = ("dotenv_export", "dotenv") :=
  ⟨(c7_content_sniffing [("cfg", FieldVal.str ("A=1".toList))]).1 "dotenv_plain" "cfg" rfl,
   (c7_content_sniffing [("n", FieldVal.nonstr)]).2 rfl⟩

/-! ### C6: resolver precedence -/

/-- C6: resolver precedence in `get_path_format` for a known environment:
an explicit path rule hit resolves by that rule alone, ignoring the
pattern scan; with no rule hit, a pattern hit resolves by the matching
format entry; with neither, the result is format `dotenv_export`, key
`dotenv` and AWS names `AWS_ACCESS_KEY_ID` / `AWS_SECRET_ACCESS_KEY`. -/
theorem c6_resolver_precedence (config : Config) (environment : String) (path : Str)
    (env_config : List ServiceEntry)
    (henv : slookup environment config.environments = some env_config) :
    (∀ path_config, findRuleInServices (cleanPath6 path) env_config = some path_config →
        get_path_format config environment path = resolveRuleSpec config path_config) ∧
    (findRuleInServices (cleanPath6 path) env_config = none →
      (∀ format_type format_config,
          findPatternFmt (lowerL (cleanPath6 path)) config.formats =
            some (format_type, format_config) →
          get_path_format config environment path =
            .ok (patternTripleSpec format_type format_config)) ∧
      (findPatternFmt (lowerL (cleanPath6 path)) config.formats = none →
        get_path_format config environment path =
          .ok ("dotenv_export", "dotenv",
               ⟨"AWS_ACCESS_KEY_ID", "AWS_SECRET_ACCESS_KEY"⟩))) := by
  refine ⟨?_, fun hrule => ⟨?_, ?_⟩⟩
  · intro path_config hpc
    simp only [get_path_format, henv, hpc]
    rfl
  · intro format_type format_config hpat
    simp only [get_path_format, henv, hrule, hpat]
    rfl
  · intro hpat
    simp only [get_path_format, henv, hrule, hpat]

/-- C6 witness: the precedence theorem at a concrete config whose single
explicit rule (suffix `team/app/env`, format json, no key, no aws_keys)
matches the cleaned path `app/env`. -/
theorem c6_witness :
    get_path_format
      ⟨[("prod",
         [ServiceEntry.svc [PathEntry.cfg ⟨"team/app/env".toList, "json", none, none⟩]])],
       [("json", ⟨[], none⟩)]⟩
      "prod" ("kv/data/app/env".toList) =
      .ok ("json", "secrets", ⟨"AWS_ACCESS_KEY_ID", "AWS_SECRET_ACCESS_KEY"⟩) :=
  ((c6_resolver_precedence
      ⟨[("prod",
         [ServiceEntry.svc [PathEntry.cfg ⟨"team/app/env".toList, "json", none, none⟩]])],
       [("json", ⟨[], none⟩)]⟩
      "prod" ("kv/data/app/env".toList)
      [ServiceEntry.svc [PathEntry.cfg ⟨"team/app/env".toList, "json", none, none⟩]]
      rfl).1
    ⟨"team/app/env".toList, "json", none, none⟩ rfl).trans rfl

end Vault
